import Mathlib

set_option maxRecDepth 10000

/-!
Shallow embedding of `src/app.py` (class `TaskScheduler`) of the
task-scheduler repository, together with the behaviour of the third-party
calls it makes:

* `networkx.DiGraph` / `networkx.topological_sort` (networkx 3.x reference
  implementation: Kahn's algorithm by generations, nodes visited in
  insertion order) and the networkx exception hierarchy;
* `apscheduler`'s `add_job(..., id=..., replace_existing=True)` job store
  (a map keyed by the string job id);
* the SQLite queries the class issues (tables modelled as lists of rows in
  rowid order).

Machine integers do not overflow here (Python ints are unbounded), so
priorities and datetimes are `Int` (datetimes as seconds) and ids are `Nat`.
-/

/-- A row of the `tasks` table, fields in `SELECT *` column order. -/
structure TaskRow where
  id : Nat
  title : String
  description : String
  priority : Int
  deadline : Option String
  status : String
  created_at : String
  completed_at : Option String
  estimated_duration : Int
deriving DecidableEq, Repr, Inhabited

/-- A row of the `notifications` table (columns written by the code). -/
structure NotificationRow where
  task_id : Nat
  message : String
  read : Nat
deriving DecidableEq, Repr

/-- The `scheduler.db` database: `tasks`, `task_dependencies`
(`(task_id, depends_on_task_id)` pairs) and `notifications`, each in rowid
(insertion) order. -/
structure Db where
  tasks : List TaskRow
  dependencies : List (Nat × Nat)
  notifs : List NotificationRow
deriving DecidableEq, Repr

/-- Stable descending insertion: keeps earlier rows first among equal
priorities. -/
def insertByPriorityDesc (t : TaskRow) : List TaskRow → List TaskRow
  | [] => [t]
  | u :: us =>
    if t.priority > u.priority then t :: u :: us else u :: insertByPriorityDesc t us

/-- `ORDER BY priority DESC` modelled as a stable sort: rows with equal
priority keep their table (rowid) order. -/
def sortByPriorityDesc : List TaskRow → List TaskRow
  | [] => []
  | t :: ts => insertByPriorityDesc t (sortByPriorityDesc ts)

/-- `SELECT * FROM tasks WHERE status = "pending" ORDER BY priority DESC`
(app.py line 122). -/
def pendingTasks (db : Db) : List TaskRow :=
  sortByPriorityDesc (db.tasks.filter (fun t => t.status = "pending"))

/-- `networkx.DiGraph.add_edge`: adding an edge that is already present does
not duplicate it. -/
def addEdgeOnce (es : List (Nat × Nat)) (e : Nat × Nat) : List (Nat × Nat) :=
  if e ∈ es then es else es ++ [e]

/-- app.py lines 136-138: for each dependency row, add the edge
`(depends_on, task_id)` when both endpoints are nodes of the graph. -/
def buildEdges (nodes : List Nat) (deps : List (Nat × Nat)) : List (Nat × Nat) :=
  deps.foldl
    (fun es td => if td.1 ∈ nodes ∧ td.2 ∈ nodes then addEdgeOnce es (td.2, td.1) else es)
    []

/-- `G.neighbors(node)`: successors of `u`, in edge insertion order. -/
def succs (edges : List (Nat × Nat)) (u : Nat) : List Nat :=
  (edges.filter (fun e => e.1 = u)).map (fun e => e.2)

/-- Lookup in an association list (a Python dict whose keys are unique). -/
def lk : List (Nat × Nat) → Nat → Option Nat
  | [], _ => none
  | p :: m, v => if p.1 = v then some p.2 else lk m v

/-- Total in-degree of `v`: number of edges pointing at `v`. -/
def indegAll (edges : List (Nat × Nat)) (v : Nat) : Nat :=
  (edges.filter (fun e => e.2 = v)).length

/-- Number of edges pointing at `v` whose source lies in `srcs`. -/
def inCount (edges : List (Nat × Nat)) (srcs : List Nat) (v : Nat) : Nat :=
  (edges.filter (fun e => e.2 = v ∧ e.1 ∈ srcs)).length

/-- One `indegree_map[child] -= 1` step of `topological_generations`: the
accumulator is `(zero_indegree-of-next-generation, indegree_map)`.  A child
absent from the map is left untouched (for graphs built by `buildEdges` each
in-edge of a child is decremented exactly once, so the `KeyError` branch of
the Python code is unreachable; map values are always positive). -/
def decChild (acc : List Nat × List (Nat × Nat)) (c : Nat) : List Nat × List (Nat × Nat) :=
  match acc.2.find? (fun p => p.1 = c) with
  | none => acc
  | some p =>
    if p.2 = 1 then (acc.1 ++ [c], acc.2.filter (fun q => ¬ q.1 = c))
    else (acc.1, acc.2.map (fun q => if q.1 = c then (q.1, q.2 - 1) else q))

/-- Process one generation: for each node (in generation order) decrement
each of its children (in edge insertion order); children whose in-degree
reaches zero form the next generation, in order of discovery. -/
def processGen (edges : List (Nat × Nat)) (gen : List Nat) (indeg : List (Nat × Nat)) :
    List Nat × List (Nat × Nat) :=
  gen.foldl (fun acc u => (succs edges u).foldl decChild acc) ([], indeg)

/-- The `while zero_indegree:` loop of `topological_generations`, fuelled.
When the loop ends with a non-empty `indegree_map` the library raises
`NetworkXUnfeasible` (modelled as `none`). -/
def genLoop (edges : List (Nat × Nat)) :
    Nat → List Nat → List (Nat × Nat) → List Nat → Option (List Nat)
  | _, [], indeg, out => if indeg.isEmpty then some out else none
  | 0, _ :: _, _, _ => none
  | fuel + 1, gen, indeg, out =>
    let r := processGen edges gen indeg
    genLoop edges fuel r.1 r.2 (out ++ gen)

/-- `indegree_map = {v: d for v, d in G.in_degree() if d > 0}` (nodes in
insertion order). -/
def initIndeg (nodes : List Nat) (edges : List (Nat × Nat)) : List (Nat × Nat) :=
  nodes.filterMap (fun v => if indegAll edges v = 0 then none else some (v, indegAll edges v))

/-- `zero_indegree = [v for v, d in G.in_degree() if d == 0]`. -/
def initGen (nodes : List Nat) (edges : List (Nat × Nat)) : List Nat :=
  nodes.filter (fun v => indegAll edges v = 0)

/-- `list(nx.topological_sort(G))`: concatenation of the generations;
`none` models the `NetworkXUnfeasible` raised on a cycle.  One unit of fuel
per emitted generation; `nodes.length + 1` units never run out. -/
def topologicalSort (nodes : List Nat) (edges : List (Nat × Nat)) : Option (List Nat) :=
  genLoop edges (nodes.length + 1) (initGen nodes edges) (initIndeg nodes edges) []

/-- The networkx exceptions relevant to `get_tasks_ordered`. -/
inductive NxExc where
  | networkXError
  | networkXUnfeasible
deriving DecidableEq, Repr

/-- Exception class hierarchy of `networkx/exception.py`:
`NetworkXError` subclasses `NetworkXException`, while `NetworkXUnfeasible`
subclasses `NetworkXAlgorithmError` (also a child of `NetworkXException`).
So a `NetworkXUnfeasible` instance is *not* an instance of `NetworkXError`,
and `except nx.NetworkXError` does not catch it. -/
def isInstanceOfNetworkXError : NxExc → Bool
  | NxExc.networkXError => true
  | NxExc.networkXUnfeasible => false

/-- Result of a Python call: a value, or an uncaught exception. -/
inductive PyResult (α : Type) where
  | ok (val : α)
  | raised (exc : NxExc)
deriving DecidableEq, Repr

/-- app.py lines 140-160: topological order, reordering of the pending rows
by it, append of rows missing from the graph, and the
`except nx.NetworkXError` handler (which does not match the
`NetworkXUnfeasible` a cycle raises). -/
def orderResult (tasks : List TaskRow) (nodes : List Nat) (edges : List (Nat × Nat)) :
    PyResult (List TaskRow) :=
  match topologicalSort nodes edges with
  | some sorted_order =>
    let ordered := sorted_order.filterMap (fun i => tasks.find? (fun t => t.id = i))
    PyResult.ok (tasks.foldl (fun acc t => if t ∈ acc then acc else acc ++ [t]) ordered)
  | none =>
    if isInstanceOfNetworkXError NxExc.networkXUnfeasible then PyResult.ok tasks
    else PyResult.raised NxExc.networkXUnfeasible

/-- `TaskScheduler.get_tasks_ordered` (app.py lines 116-160) as a function
of the database snapshot. -/
def getTasksOrdered (db : Db) : PyResult (List TaskRow) :=
  orderResult (pendingTasks db) ((pendingTasks db).map (fun t => t.id))
    (buildEdges ((pendingTasks db).map (fun t => t.id)) db.dependencies)

/-- In-memory state of a `TaskScheduler` instance: the `task_heap` that
`add_task` pushes `(-priority, deadline, task_id, title)` items onto, and
the `dependency_graph` left behind by the previous ordering call. -/
structure TaskSchedulerState where
  task_heap : List (Int × Int × Nat × String)
  dependency_graph : List Nat × List (Nat × Nat)
deriving DecidableEq, Repr

/-- `get_tasks_ordered` as the method: it clears and rebuilds
`self.dependency_graph` and never reads `self.task_heap`.  Returns the
result together with the instance state after the call. -/
def get_tasks_ordered (s : TaskSchedulerState) (db : Db) :
    PyResult (List TaskRow) × TaskSchedulerState :=
  (orderResult (pendingTasks db) ((pendingTasks db).map (fun t => t.id))
      (buildEdges ((pendingTasks db).map (fun t => t.id)) db.dependencies),
   { s with
      dependency_graph :=
        ((pendingTasks db).map (fun t => t.id),
         buildEdges ((pendingTasks db).map (fun t => t.id)) db.dependencies) })

/-- Python `str.upper()` (ASCII case mapping suffices for the strings the
code builds). -/
def strUpper (s : String) : String :=
  String.mk (s.data.map Char.toUpper)

/-- Python `interval_name.replace(" ", "_")`: the pattern is the single
space character, so replacement is character-wise. -/
def replaceSpaceChars : List Char → List Char
  | [] => []
  | c :: cs => (if c = ' ' then '_' else c) :: replaceSpaceChars cs

def underscored (s : String) : String :=
  String.mk (replaceSpaceChars s.data)

/-- An apscheduler job as `schedule_notification` registers it: the
`DateTrigger` run date and the `args=[task_id, interval_name]` passed to
`send_notification`. -/
structure Job where
  run_date : Int
  arg_task_id : Nat
  arg_interval_name : String
deriving DecidableEq, Repr

/-- `scheduler.add_job(..., id=jid, replace_existing=True)`: the job store
is keyed by the string id; an existing job under the same id is replaced,
otherwise the job is appended. -/
def addJobReplaceExisting (jobs : List (String × Job)) (jid : String) (j : Job) :
    List (String × Job) :=
  if (jobs.find? (fun p => p.1 = jid)).isSome then
    jobs.map (fun p => if p.1 = jid then (jid, j) else p)
  else jobs ++ [(jid, j)]

/-- app.py lines 167-171: `(timedelta, interval_name)` pairs, with
timedeltas in seconds. -/
def notification_intervals : List (Int × String) :=
  [(86400, "24 hours"), (3600, "1 hour"), (300, "5 minutes")]

/-- Job id `f'immediate_test_{task_id}'`. -/
def immediateKey (task_id : Nat) : String :=
  "immediate_test_" ++ toString task_id

/-- Job id `f'notification_{task_id}_{interval_name.replace(" ", "_")}'`. -/
def notifKey (task_id : Nat) (interval_name : String) : String :=
  "notification_" ++ toString task_id ++ "_" ++ underscored interval_name

/-- `TaskScheduler.schedule_notification` (app.py lines 162-194): `now` is
`datetime.now()` at call time, `deadline_dt` the parsed deadline, both in
seconds.  Registers the 30-second immediate-test job when
`now + 30 < deadline_dt`, then each of the three offset jobs whose fire
time `deadline_dt - interval` is strictly after `now`. -/
def schedule_notification (jobs : List (String × Job)) (now : Int) (task_id : Nat)
    (deadline_dt : Int) : List (String × Job) :=
  let jobs1 :=
    if now + 30 < deadline_dt then
      addJobReplaceExisting jobs (immediateKey task_id)
        { run_date := now + 30, arg_task_id := task_id, arg_interval_name := "IMMEDIATE_TEST" }
    else jobs
  notification_intervals.foldl
    (fun js iv =>
      if deadline_dt - iv.1 > now then
        addJobReplaceExisting js (notifKey task_id iv.2)
          { run_date := deadline_dt - iv.1, arg_task_id := task_id, arg_interval_name := iv.2 }
      else js)
    jobs1

/-- Python string interpolation of a nullable TEXT column: `None` prints as
`"None"`. -/
def optText : Option String → String
  | none => "None"
  | some s => s

/-- The apostrophe character, as it appears inside the message f-string. -/
def squote : String :=
  String.mk [Char.ofNat 39]

/-- The message
`f"⏰ {interval_name.upper()} REMINDER: Task '{task[0]}' deadline approaching! Due: {task[1]}"`
built by `send_notification` from the row read at fire time. -/
def reminderMessage (interval_name title deadline_text : String) : String :=
  "⏰ " ++ strUpper interval_name ++ " REMINDER: Task " ++ squote ++ title ++ squote ++
    " deadline approaching! Due: " ++ deadline_text

/-- `TaskScheduler.send_notification` (app.py lines 214-230): reads the
task row by id at fire time; when found, appends exactly one notification
row; when not found, commits without writing anything. -/
def send_notification (db : Db) (task_id : Nat) (interval_name : String) : Db :=
  match db.tasks.find? (fun t => t.id = task_id) with
  | some t =>
    { db with
        notifs := db.notifs ++
          [{ task_id := task_id,
             message := reminderMessage interval_name t.title (optText t.deadline),
             read := 0 }] }
  | none => db

/-- Modelled from the spec (§4.3): `compare(a, b)` — priority descending,
then deadline ascending with a missing deadline last, then id ascending.
This definition follows the spec's words, not the code; it exists to be
compared with what the code computes.  ISO-8601 deadline strings compare
chronologically as strings. -/
def specDeadlineLt (a b : Option String) : Bool :=
  match a, b with
  | some x, some y => x < y
  | some _, none => true
  | none, _ => false

def specCompare (a b : TaskRow) : Bool :=
  if a.priority > b.priority then true
  else if b.priority > a.priority then false
  else if specDeadlineLt a.deadline b.deadline then true
  else if specDeadlineLt b.deadline a.deadline then false
  else a.id < b.id

/-- Modelled from the spec: first element of `l` minimal for `specCompare`
(the ready task the spec's step 1 selects). -/
def specPickBest : List TaskRow → Option TaskRow
  | [] => none
  | t :: ts => some (ts.foldl (fun best u => if specCompare u best then u else best) t)

/-- Modelled from the spec (§4.1 fallback): all pending tasks sorted by
`specCompare`. -/
def specInsert (t : TaskRow) : List TaskRow → List TaskRow
  | [] => [t]
  | u :: us => if specCompare t u then t :: u :: us else u :: specInsert t us

def specSort : List TaskRow → List TaskRow
  | [] => []
  | t :: ts => specInsert t (specSort ts)

/-- Modelled from the spec (§4.1): priority-aware ready-set loop — emit the
`specCompare`-best task among those with no unresolved prerequisite inside
the remaining pending set; on a cycle, `none` (the caller then falls back). -/
def specLoop (deps : List (Nat × Nat)) :
    Nat → List TaskRow → List TaskRow → Option (List TaskRow)
  | _, [], acc => some acc
  | 0, _ :: _, _ => none
  | fuel + 1, remaining, acc =>
    let ready := remaining.filter
      (fun t => remaining.all (fun d => ¬ ((t.id, d.id) ∈ deps)))
    match specPickBest ready with
    | none => none
    | some best => specLoop deps fuel (remaining.erase best) (acc ++ [best])

/-- Modelled from the spec (§4.1): the full `GetOrderedTasks` contract —
dependency-aware priority order over the pending set, falling back to the
pure `specCompare` sort when a cycle exists. -/
def specOrderedTasks (db : Db) : List TaskRow :=
  let pending := db.tasks.filter (fun t => t.status = "pending")
  match specLoop db.dependencies pending.length pending [] with
  | some l => l
  | none => specSort pending

/-- `a` occurs strictly before `b` in `l`. -/
def Before {α : Type} (l : List α) (a b : α) : Prop :=
  ∃ i j : Nat, i < j ∧ l[i]? = some a ∧ l[j]? = some b

/-- Invariant of the `topological_generations` loop: `out` is what has been
emitted so far, `gen` the generation about to be emitted, `indeg` the
in-degree map of the remaining nodes (counts relative to not-yet-emitted
sources, always positive). -/
structure KahnInv (edges : List (Nat × Nat)) (nodes : List Nat) (out gen : List Nat)
    (indeg : List (Nat × Nat)) : Prop where
  perm : (out ++ gen ++ indeg.map (fun p => p.1)).Perm nodes
  counts : ∀ p ∈ indeg,
    p.2 = inCount edges (gen ++ indeg.map (fun q => q.1)) p.1 ∧ 0 < p.2
  genReady : ∀ v ∈ gen, inCount edges (gen ++ indeg.map (fun q => q.1)) v = 0
  ordered : ∀ e ∈ edges, e.2 ∈ out → Before out e.1 e.2
  outClosed : ∀ e ∈ edges, e.2 ∈ out → e.1 ∈ out
  srcMem : ∀ e ∈ edges, e.1 ∈ nodes
  tgtMem : ∀ e ∈ edges, e.2 ∈ nodes

/-- Acyclicity of an edge list: no node is related to itself by a non-empty
chain of edges. -/
def Acyclic (edges : List (Nat × Nat)) : Prop :=
  ∀ v, ¬ Relation.TransGen (fun a b => (a, b) ∈ edges) v v

/-- The (unique) pending row with a given id. -/
def taskOfId (tasks : List TaskRow) (i : Nat) : TaskRow :=
  (tasks.find? (fun t => t.id = i)).getD default

/-! ### Concrete snapshots used by the claims -/

def rowP : TaskRow := ⟨1, "P", "", 4, none, "pending", "", none, 60⟩

def rowQ : TaskRow := ⟨2, "Q", "", 7, none, "pending", "", none, 60⟩

/-- P depends on Q and Q depends on P: a two-cycle among pending tasks. -/
def cycleDb : Db := ⟨[rowP, rowQ], [(1, 2), (2, 1)], []⟩

def rowA3 : TaskRow := ⟨1, "A", "", 9, none, "pending", "", none, 60⟩

def rowB3 : TaskRow := ⟨2, "B", "", 1, none, "pending", "", none, 60⟩

def rowC3 : TaskRow := ⟨3, "C", "", 5, none, "pending", "", none, 60⟩

/-- A(priority 9), B(priority 1), C(priority 5, depends on A): after A is
emitted both B and C are ready and the tie-break rule would pick C. -/
def exDb3 : Db := ⟨[rowA3, rowB3, rowC3], [(3, 1)], []⟩

def w2d : TaskRow := ⟨1, "first", "", 1, none, "pending", "", none, 60⟩

def w2t : TaskRow := ⟨2, "second", "", 9, none, "pending", "", none, 60⟩

/-- Task 2 depends on task 1; acyclic. -/
def w2Db : Db := ⟨[w2d, w2t], [(2, 1)], []⟩

def rowDone : TaskRow := ⟨3, "done", "", 9, none, "completed", "", none, 60⟩

/-- A pending task plus a completed one, with an edge pointing at the
completed task. -/
def exDb8 : Db := ⟨[rowP, rowDone], [(1, 3)], []⟩

/-- Store without any task of id 9, with one pre-existing notification. -/
def exDb7 : Db := ⟨[rowP], [], [⟨1, "old", 0⟩]⟩

/-- The dependency edges `get_tasks_ordered` builds over the pending set. -/
def depEdges (db : Db) : List (Nat × Nat) :=
  buildEdges ((pendingTasks db).map (fun t => t.id)) db.dependencies

/-! ### Generic list lemmas used by the ordering proofs -/

lemma lt_length_of_getElem?_some {α : Type} {l : List α} {i : Nat} {a : α}
    (h : l[i]? = some a) : i < l.length := by
  obtain ⟨hlt, -⟩ := List.getElem?_eq_some.mp h
  exact hlt

lemma Before.append_right {α : Type} {l : List α} {a b : α} (h : Before l a b)
    (l' : List α) : Before (l ++ l') a b := by
  obtain ⟨i, j, hij, ha, hb⟩ := h
  exact ⟨i, j, hij,
    (List.getElem?_append_left (lt_length_of_getElem?_some ha)).trans ha,
    (List.getElem?_append_left (lt_length_of_getElem?_some hb)).trans hb⟩

lemma Before.of_mem_append {α : Type} {l l' : List α} {a b : α}
    (ha : a ∈ l) (hb : b ∈ l') : Before (l ++ l') a b := by
  obtain ⟨i, hi⟩ := List.mem_iff_getElem?.mp ha
  obtain ⟨j, hj⟩ := List.mem_iff_getElem?.mp hb
  refine ⟨i, l.length + j, ?_, ?_, ?_⟩
  · exact lt_of_lt_of_le (lt_length_of_getElem?_some hi) (Nat.le_add_right _ _)
  · exact (List.getElem?_append_left (lt_length_of_getElem?_some hi)).trans hi
  · rw [List.getElem?_append_right (Nat.le_add_right _ _), Nat.add_sub_cancel_left]
    exact hj

lemma Before.map {α β : Type} {l : List α} {a b : α} (f : α → β) (h : Before l a b) :
    Before (l.map f) (f a) (f b) := by
  obtain ⟨i, j, hij, ha, hb⟩ := h
  exact ⟨i, j, hij, by rw [List.getElem?_map, ha]; rfl, by rw [List.getElem?_map, hb]; rfl⟩

/-- `List.filterMap` is a plain `map` when the function is `some ∘ g` on
every element. -/
lemma filterMap_eq_map_of_forall {α β : Type} {f : α → Option β} {g : α → β} :
    ∀ {l : List α}, (∀ a ∈ l, f a = some (g a)) → l.filterMap f = l.map g
  | [], _ => rfl
  | a :: l, h => by
    have ha := h a (List.mem_cons_self a l)
    simp only [List.filterMap_cons, ha, List.map_cons]
    exact congrArg _ (filterMap_eq_map_of_forall (fun x hx => h x (List.mem_cons_of_mem a hx)))

/-- The append-missing-rows loop is the identity when every row is already
present. -/
lemma foldl_append_new_eq_self {α : Type} [DecidableEq α] :
    ∀ (l : List α) (acc : List α), (∀ a ∈ l, a ∈ acc) →
      l.foldl (fun acc t => if t ∈ acc then acc else acc ++ [t]) acc = acc
  | [], _, _ => rfl
  | a :: l, acc, h => by
    have ha : a ∈ acc := h a (List.mem_cons_self a l)
    simp only [List.foldl_cons, if_pos ha]
    exact foldl_append_new_eq_self l acc (fun x hx => h x (List.mem_cons_of_mem a hx))

/-- First-match lookup of a member by its unique id. -/
lemma find?_eq_some_of_nodup_ids {l : List TaskRow} {t : TaskRow}
    (hnd : (l.map (fun x => x.id)).Nodup) (ht : t ∈ l) :
    l.find? (fun x => x.id = t.id) = some t := by
  induction l with
  | nil => cases ht
  | cons h l ih =>
    rw [List.map_cons, List.nodup_cons] at hnd
    rcases List.mem_cons.mp ht with rfl | hmem
    · rw [List.find?_cons_of_pos _ (by simp)]
    · have hne : ¬ (h.id = t.id) := fun he => hnd.1 (he ▸ List.mem_map_of_mem (fun x => x.id) hmem)
      rw [List.find?_cons_of_neg _ (by simpa using hne)]
      exact ih hnd.2 hmem

/-! ### Association-list lemmas for the in-degree map -/

lemma find?_key_eq_lk (m : List (Nat × Nat)) (c : Nat) :
    m.find? (fun p => p.1 = c) = (lk m c).map (fun n => (c, n)) := by
  induction m with
  | nil => rfl
  | cons p m ih =>
    by_cases hp : p.1 = c
    · rw [List.find?_cons_of_pos _ (by simpa using hp), lk, if_pos hp]
      cases p
      simp_all
    · rw [List.find?_cons_of_neg _ (by simpa using hp), lk, if_neg hp]
      exact ih

lemma lk_none_iff {m : List (Nat × Nat)} {v : Nat} :
    lk m v = none ↔ v ∉ m.map (fun p => p.1) := by
  induction m with
  | nil => simp [lk]
  | cons p m ih =>
    rw [lk, List.map_cons]
    by_cases hp : p.1 = v
    · simp [hp]
    · rw [if_neg hp]
      simp only [List.mem_cons, not_or]
      constructor
      · intro h
        exact ⟨fun he => hp he.symm, ih.mp h⟩
      · intro h
        exact ih.mpr h.2

lemma mem_of_lk {m : List (Nat × Nat)} {v n : Nat} (h : lk m v = some n) : (v, n) ∈ m := by
  induction m with
  | nil => cases h
  | cons p m ih =>
    rw [lk] at h
    by_cases hp : p.1 = v
    · rw [if_pos hp] at h
      have : p = (v, n) := by
        cases p
        simp_all
      exact this ▸ List.mem_cons_self p m
    · exact List.mem_cons_of_mem p (ih (by rwa [if_neg hp] at h))

lemma lk_of_mem_nodup {m : List (Nat × Nat)} {p : Nat × Nat}
    (hnd : (m.map (fun q => q.1)).Nodup) (hp : p ∈ m) : lk m p.1 = some p.2 := by
  induction m with
  | nil => cases hp
  | cons q m ih =>
    rw [List.map_cons, List.nodup_cons] at hnd
    rcases List.mem_cons.mp hp with rfl | hmem
    · rw [lk, if_pos rfl]
    · have hne : ¬ (q.1 = p.1) :=
        fun he => hnd.1 (he ▸ List.mem_map_of_mem (fun x => x.1) hmem)
      rw [lk, if_neg hne]
      exact ih hnd.2 hmem

lemma lk_filter_self (m : List (Nat × Nat)) (c : Nat) :
    lk (m.filter (fun q => ¬ q.1 = c)) c = none := by
  induction m with
  | nil => rfl
  | cons q m ih =>
    by_cases hq : q.1 = c
    · rwa [List.filter_cons_of_neg (by simpa using hq)]
    · rw [List.filter_cons_of_pos (by simpa using hq), lk, if_neg hq]
      exact ih

lemma lk_filter_ne (m : List (Nat × Nat)) {c v : Nat} (h : v ≠ c) :
    lk (m.filter (fun q => ¬ q.1 = c)) v = lk m v := by
  induction m with
  | nil => rfl
  | cons q m ih =>
    by_cases hq : q.1 = c
    · rw [List.filter_cons_of_neg (by simpa using hq), lk,
        if_neg (fun he : q.1 = v => h (he ▸ hq ▸ rfl))]
      exact ih
    · rw [List.filter_cons_of_pos (by simpa using hq), lk, lk]
      by_cases hv : q.1 = v
      · rw [if_pos hv, if_pos hv]
      · rw [if_neg hv, if_neg hv]
        exact ih

lemma keys_filter (m : List (Nat × Nat)) (c : Nat) :
    (m.filter (fun q => ¬ q.1 = c)).map (fun p => p.1) =
      (m.map (fun p => p.1)).filter (fun k => ¬ k = c) := by
  induction m with
  | nil => rfl
  | cons q m ih =>
    by_cases hq : q.1 = c
    · rw [List.filter_cons_of_neg (by simpa using hq), List.map_cons,
        List.filter_cons_of_neg (by simpa using hq)]
      exact ih
    · rw [List.filter_cons_of_pos (by simpa using hq), List.map_cons, List.map_cons,
        List.filter_cons_of_pos (by simpa using hq)]
      exact congrArg _ ih

lemma keys_decAt (m : List (Nat × Nat)) (c : Nat) :
    (m.map (fun q => if q.1 = c then (q.1, q.2 - 1) else q)).map (fun p => p.1) =
      m.map (fun p => p.1) := by
  rw [List.map_map]
  refine List.map_congr_left (fun q _ => ?_)
  by_cases hq : q.1 = c <;> simp [hq]

lemma lk_decAt (m : List (Nat × Nat)) (c v : Nat) :
    lk (m.map (fun q => if q.1 = c then (q.1, q.2 - 1) else q)) v =
      if v = c then (lk m c).map (fun n => n - 1) else lk m v := by
  induction m with
  | nil => by_cases hv : v = c <;> simp [lk, hv]
  | cons q m ih =>
    by_cases hqc : q.1 = c
    · by_cases hvc : v = c
      · subst hvc
        simp [lk, hqc]
      · have hqv : ¬ q.1 = v := fun h => hvc (h.symm.trans hqc)
        have hcv : ¬ c = v := fun h => hvc h.symm
        simp only [if_neg hvc] at ih ⊢
        simp [lk, hqc, hqv, hcv, ih, if_neg hvc]
    · by_cases hvc : v = c
      · subst hvc
        simp [lk, hqc, ih]
      · by_cases hqv : q.1 = v
        · simp [lk, hqc, hqv, if_neg hvc]
        · simp only [if_neg hvc] at ih
          simp [lk, hqc, hqv, ih, if_neg hvc]

/-! ### Counting lemmas for in-degrees -/

lemma length_filter_or_disjoint {α : Type} (p q : α → Bool) :
    ∀ l : List α, (∀ a ∈ l, ¬ (p a = true ∧ q a = true)) →
      (l.filter (fun a => p a || q a)).length = (l.filter p).length + (l.filter q).length
  | [], _ => rfl
  | a :: l, h => by
    have ih := length_filter_or_disjoint p q l (fun x hx => h x (List.mem_cons_of_mem a hx))
    have ha := h a (List.mem_cons_self a l)
    by_cases hp : p a = true
    · have hq : ¬ q a = true := fun hq => ha ⟨hp, hq⟩
      rw [List.filter_cons_of_pos (by simp [hp]), List.filter_cons_of_pos hp,
        List.filter_cons_of_neg hq]
      simp [ih, Nat.add_right_comm]
    · by_cases hq : q a = true
      · rw [List.filter_cons_of_pos (by simp [hq]), List.filter_cons_of_neg hp,
          List.filter_cons_of_pos hq]
        simp [ih, Nat.add_assoc]
      · rw [List.filter_cons_of_neg (by simp [hp, hq]), List.filter_cons_of_neg hp,
          List.filter_cons_of_neg hq]
        exact ih

lemma count_succs (edges : List (Nat × Nat)) (u v : Nat) :
    (succs edges u).count v = (edges.filter (fun e => e.2 = v ∧ e.1 = u)).length := by
  induction edges with
  | nil => rfl
  | cons e es ih =>
    unfold succs at ih ⊢
    by_cases h1 : e.1 = u
    · rw [List.filter_cons_of_pos (by simpa using h1), List.map_cons]
      by_cases h2 : e.2 = v
      · rw [List.filter_cons_of_pos (by simp [h1, h2]), List.count_cons, ih]
        simp [h2]
      · rw [List.filter_cons_of_neg (by simp [h2]), List.count_cons, ih]
        simp [h2]
    · rw [List.filter_cons_of_neg (by simpa using h1),
        List.filter_cons_of_neg (by simp [h1]), ih]

lemma inCount_cons (edges : List (Nat × Nat)) (u : Nat) (gen : List Nat) (v : Nat)
    (hu : u ∉ gen) :
    inCount edges (u :: gen) v =
      (edges.filter (fun e => e.2 = v ∧ e.1 = u)).length + inCount edges gen v := by
  unfold inCount
  rw [show (edges.filter (fun e => decide (e.2 = v ∧ e.1 ∈ u :: gen))) =
      edges.filter (fun e =>
        (decide (e.2 = v ∧ e.1 = u)) || (decide (e.2 = v ∧ e.1 ∈ gen))) from
    List.filter_congr (fun e _ => by
      simp only [List.mem_cons, Bool.decide_and, Bool.decide_or, Bool.and_or_distrib_left])]
  exact length_filter_or_disjoint _ _ edges (fun e _ h => by
    obtain ⟨h1, h2⟩ := h
    simp only [decide_eq_true_eq] at h1 h2
    exact hu (h1.2 ▸ h2.2))

lemma count_flatMap_succs (edges : List (Nat × Nat)) (v : Nat) :
    ∀ gen : List Nat, gen.Nodup →
      (gen.flatMap (succs edges)).count v = inCount edges gen v
  | [], _ => by simp [inCount]
  | u :: gen, hnd => by
    rw [List.nodup_cons] at hnd
    rw [List.flatMap_cons, List.count_append, count_succs,
      count_flatMap_succs edges v gen hnd.2, inCount_cons edges u gen v hnd.1]

lemma inCount_perm (edges : List (Nat × Nat)) {S S' : List Nat} (h : S.Perm S') (v : Nat) :
    inCount edges S v = inCount edges S' v := by
  unfold inCount
  exact congrArg _ (List.filter_congr (fun e _ => by simp [h.mem_iff]))

lemma inCount_zero_no_src {edges : List (Nat × Nat)} {S : List Nat} {v : Nat}
    (h : inCount edges S v = 0) : ∀ e ∈ edges, e.2 = v → e.1 ∉ S := by
  intro e he hv hs
  have : e ∈ edges.filter (fun e => decide (e.2 = v ∧ e.1 ∈ S)) :=
    List.mem_filter.mpr ⟨he, by simp [hv, hs]⟩
  rw [List.length_eq_zero.mp h] at this
  cases this

lemma inCount_pos_has_src {edges : List (Nat × Nat)} {S : List Nat} {v : Nat}
    (h : 0 < inCount edges S v) : ∃ e ∈ edges, e.2 = v ∧ e.1 ∈ S := by
  obtain ⟨e, he⟩ := List.exists_mem_of_length_pos h
  have := List.mem_filter.mp he
  exact ⟨e, this.1, by simpa using this.2⟩

lemma inCount_le_indegAll (edges : List (Nat × Nat)) (S : List Nat) (v : Nat) :
    inCount edges S v ≤ indegAll edges v := by
  induction edges with
  | nil => exact Nat.le_refl 0
  | cons e es ih =>
    unfold inCount indegAll at ih ⊢
    by_cases h2 : e.2 = v
    · by_cases h1 : e.1 ∈ S
      · rw [List.filter_cons_of_pos (by simp [h1, h2]), List.filter_cons_of_pos (by simp [h2])]
        simpa using ih
      · rw [List.filter_cons_of_neg (by simp [h1]), List.filter_cons_of_pos (by simp [h2])]
        exact Nat.le_succ_of_le ih
    · rw [List.filter_cons_of_neg (by simp [h2]), List.filter_cons_of_neg (by simp [h2])]
      exact ih

lemma processGen_eq_foldl_aux (edges : List (Nat × Nat)) :
    ∀ (gen : List Nat) (acc : List Nat × List (Nat × Nat)),
      gen.foldl (fun acc u => (succs edges u).foldl decChild acc) acc =
        (gen.flatMap (succs edges)).foldl decChild acc
  | [], _ => rfl
  | u :: gen, acc => by
    rw [List.foldl_cons, List.flatMap_cons, List.foldl_append]
    exact processGen_eq_foldl_aux edges gen _

lemma processGen_eq_foldl (edges : List (Nat × Nat)) (gen : List Nat)
    (indeg : List (Nat × Nat)) :
    processGen edges gen indeg = (gen.flatMap (succs edges)).foldl decChild ([], indeg) :=
  processGen_eq_foldl_aux edges gen ([], indeg)

/-! ### Characterisation of one generation step -/

/-- Computation of one `decChild` step when the child has a positive count. -/
lemma decChild_eq_of_lk {m : List (Nat × Nat)} {c n : Nat} (ng : List Nat)
    (hn : lk m c = some n) :
    decChild (ng, m) c =
      if n = 1 then (ng ++ [c], m.filter (fun q => ¬ q.1 = c))
      else (ng, m.map (fun q => if q.1 = c then (q.1, q.2 - 1) else q)) := by
  unfold decChild
  rw [show (ng, m).2 = m from rfl, find?_key_eq_lk, hn]
  rfl

/-- Full effect of folding `decChild` over a child list `cs`: each key's
count drops by its multiplicity in `cs`; keys whose count reaches zero are
removed from the map and appended (once) to the generation accumulator. -/
lemma foldl_decChild_spec :
    ∀ (cs : List Nat) (ng : List Nat) (m : List (Nat × Nat)),
      (ng ++ m.map (fun p => p.1)).Nodup →
      (∀ p ∈ m, 0 < p.2) →
      (∀ v n, lk m v = some n → cs.count v ≤ n) →
      (∀ v, lk m v = none → cs.count v = 0) →
      (∃ dl, (cs.foldl decChild (ng, m)).1 = ng ++ dl) ∧
      ((cs.foldl decChild (ng, m)).1 ++
          (cs.foldl decChild (ng, m)).2.map (fun p => p.1)).Perm
        (ng ++ m.map (fun p => p.1)) ∧
      (∀ v n, lk m v = some n → cs.count v < n →
        lk (cs.foldl decChild (ng, m)).2 v = some (n - cs.count v)) ∧
      (∀ v n, lk m v = some n → cs.count v = n →
        lk (cs.foldl decChild (ng, m)).2 v = none ∧ v ∈ (cs.foldl decChild (ng, m)).1) ∧
      (∀ v, lk m v = none →
        lk (cs.foldl decChild (ng, m)).2 v = none ∧
          ((v ∈ (cs.foldl decChild (ng, m)).1) ↔ v ∈ ng)) ∧
      (∀ p ∈ (cs.foldl decChild (ng, m)).2, 0 < p.2)
  | [], ng, m, hnd, hpos, _, _ => by
    refine ⟨⟨[], by simp⟩, by simp, ?_, ?_, ?_, hpos⟩
    · intro v n hv _
      simpa using hv
    · intro v n hv hc
      have hp : 0 < n := hpos (v, n) (mem_of_lk hv)
      simp only [List.count_nil] at hc
      omega
    · intro v hv
      exact ⟨hv, Iff.rfl⟩
  | c :: cs', ng, m, hnd, hpos, hbound, hmiss => by
    obtain ⟨hngd, hkmd, hdisj⟩ := List.nodup_append.mp hnd
    -- the child must have an entry, else its count bound is violated
    obtain ⟨n, hn⟩ : ∃ n, lk m c = some n := by
      cases hc : lk m c with
      | none =>
        have := hmiss c hc
        rw [List.count_cons_self] at this
        omega
      | some n => exact ⟨n, rfl⟩
    have hnpos : 0 < n := by
      have := hpos (c, n) (mem_of_lk hn)
      simpa using this
    have hcmem : c ∈ m.map (fun p => p.1) :=
      List.mem_map_of_mem (fun p => p.1) (mem_of_lk hn)
    have hstep := decChild_eq_of_lk ng hn
    rw [List.foldl_cons]
    by_cases h1 : n = 1
    · -- count reached zero: remove the key, append it to the generation
      subst h1
      rw [if_pos rfl] at hstep
      rw [hstep]
      have hc0 : cs'.count c = 0 := by
        have := hbound c 1 hn
        rw [List.count_cons_self] at this
        omega
      have hpermk : (m.map (fun p => p.1)).Perm
          (c :: (m.filter (fun q => ¬ q.1 = c)).map (fun p => p.1)) := by
        rw [keys_filter]
        have h1 := List.perm_cons_erase hcmem
        have h2 : (m.map (fun p => p.1)).erase c =
            (m.map (fun p => p.1)).filter (fun k => ¬ k = c) := by
          rw [hkmd.erase_eq_filter]
          exact List.filter_congr (fun k _ => by by_cases h : k = c <;> simp [h])
        rwa [h2] at h1
      have hpermfull : ((ng ++ [c]) ++
            (m.filter (fun q => ¬ q.1 = c)).map (fun p => p.1)).Perm
          (ng ++ m.map (fun p => p.1)) := by
        rw [List.append_assoc]
        exact (List.Perm.append_left ng (by simpa using hpermk.symm))
      have hnd' : ((ng ++ [c]) ++
          (m.filter (fun q => ¬ q.1 = c)).map (fun p => p.1)).Nodup :=
        hpermfull.nodup_iff.mpr hnd
      have hpos' : ∀ p ∈ m.filter (fun q => ¬ q.1 = c), 0 < p.2 :=
        fun p hp => hpos p (List.mem_of_mem_filter hp)
      have hbound' : ∀ v n₀, lk (m.filter (fun q => ¬ q.1 = c)) v = some n₀ →
          cs'.count v ≤ n₀ := by
        intro v n₀ hv
        by_cases hvc : v = c
        · rw [hvc, lk_filter_self] at hv
          cases hv
        · rw [lk_filter_ne m hvc] at hv
          have := hbound v n₀ hv
          rwa [List.count_cons_of_ne hvc] at this
      have hmiss' : ∀ v, lk (m.filter (fun q => ¬ q.1 = c)) v = none →
          cs'.count v = 0 := by
        intro v hv
        by_cases hvc : v = c
        · rw [hvc]
          exact hc0
        · rw [lk_filter_ne m hvc] at hv
          have := hmiss v hv
          rwa [List.count_cons_of_ne hvc] at this
      obtain ⟨⟨dl, hdl⟩, hperm, hc3, hc4, hc5, hc6⟩ :=
        foldl_decChild_spec cs' (ng ++ [c]) (m.filter (fun q => ¬ q.1 = c))
          hnd' hpos' hbound' hmiss'
      refine ⟨⟨c :: dl, by rw [hdl, List.append_assoc]; rfl⟩,
        hperm.trans hpermfull, ?_, ?_, ?_, hc6⟩
      · intro v n₀ hv hcount
        by_cases hvc : v = c
        · rw [hvc] at hv hcount
          rw [hn] at hv
          cases hv
          rw [List.count_cons_self] at hcount
          exfalso
          omega
        · rw [List.count_cons_of_ne hvc] at hcount ⊢
          exact hc3 v n₀ (by rwa [lk_filter_ne m hvc]) hcount
      · intro v n₀ hv hcount
        by_cases hvc : v = c
        · have h5 := hc5 c (lk_filter_self m c)
          rw [hvc]
          exact ⟨h5.1, h5.2.mpr (by simp)⟩
        · rw [List.count_cons_of_ne hvc] at hcount
          exact hc4 v n₀ (by rwa [lk_filter_ne m hvc]) hcount
      · intro v hv
        have hvc : v ≠ c := fun he => by rw [he, hn] at hv; cases hv
        have h5 := hc5 v (by rwa [lk_filter_ne m hvc])
        refine ⟨h5.1, h5.2.trans ?_⟩
        simp [List.mem_append, hvc]
    · -- count stays positive: decrement the key in place
      have h2 : 2 ≤ n := by omega
      rw [if_neg h1] at hstep
      rw [hstep]
      have hkeys := keys_decAt m c
      have hnd' : (ng ++ (m.map (fun q => if q.1 = c then (q.1, q.2 - 1) else q)).map
          (fun p => p.1)).Nodup := by rwa [hkeys]
      have hlk' := lk_decAt m c
      have hpos' : ∀ p ∈ m.map (fun q => if q.1 = c then (q.1, q.2 - 1) else q),
          0 < p.2 := by
        intro p hp
        obtain ⟨q, hq, rfl⟩ := List.mem_map.mp hp
        by_cases hqc : q.1 = c
        · have : lk m q.1 = some q.2 := lk_of_mem_nodup hkmd hq
          rw [hqc, hn] at this
          cases this
          simp [hqc]
          omega
        · simpa [hqc] using hpos q hq
      have hbound' : ∀ v n₀,
          lk (m.map (fun q => if q.1 = c then (q.1, q.2 - 1) else q)) v = some n₀ →
          cs'.count v ≤ n₀ := by
        intro v n₀ hv
        rw [hlk' v] at hv
        by_cases hvc : v = c
        · rw [if_pos hvc, hn] at hv
          cases hv
          have hb := hbound c n hn
          rw [List.count_cons_self] at hb
          rw [hvc]
          show List.count c cs' ≤ n - 1
          omega
        · rw [if_neg hvc] at hv
          have := hbound v n₀ hv
          rwa [List.count_cons_of_ne hvc] at this
      have hmiss' : ∀ v,
          lk (m.map (fun q => if q.1 = c then (q.1, q.2 - 1) else q)) v = none →
          cs'.count v = 0 := by
        intro v hv
        rw [hlk' v] at hv
        by_cases hvc : v = c
        · rw [if_pos hvc, hn] at hv
          cases hv
        · rw [if_neg hvc] at hv
          have := hmiss v hv
          rwa [List.count_cons_of_ne hvc] at this
      obtain ⟨hc1, hperm, hc3, hc4, hc5, hc6⟩ :=
        foldl_decChild_spec cs' ng (m.map (fun q => if q.1 = c then (q.1, q.2 - 1) else q))
          hnd' hpos' hbound' hmiss'
      refine ⟨hc1, by rwa [hkeys] at hperm, ?_, ?_, ?_, hc6⟩
      · intro v n₀ hv hcount
        by_cases hvc : v = c
        · rw [hvc] at hv hcount ⊢
          rw [hn] at hv
          cases hv
          rw [List.count_cons_self] at hcount
          have hres := hc3 c (n - 1) (by rw [hlk' c, if_pos rfl, hn]; rfl) (by omega)
          rw [List.count_cons_self, hres]
          show some (n - 1 - List.count c cs') = some (n - (List.count c cs' + 1))
          exact congrArg some (by omega)
        · rw [List.count_cons_of_ne hvc] at hcount ⊢
          exact hc3 v n₀ (by rw [hlk' v, if_neg hvc]; exact hv) hcount
      · intro v n₀ hv hcount
        by_cases hvc : v = c
        · rw [hvc] at hv hcount ⊢
          rw [hn] at hv
          cases hv
          rw [List.count_cons_self] at hcount
          exact hc4 c (n - 1) (by rw [hlk' c, if_pos rfl, hn]; rfl) (by omega)
        · rw [List.count_cons_of_ne hvc] at hcount
          exact hc4 v n₀ (by rw [hlk' v, if_neg hvc]; exact hv) hcount
      · intro v hv
        have hvc : v ≠ c := fun he => by rw [he, hn] at hv; cases hv
        exact hc5 v (by rw [hlk' v, if_neg hvc]; exact hv)

/-! ### A stuck in-degree map implies a cycle -/

/-- If every member of a non-empty finite set has an in-edge from inside the
set, the edge relation has a cycle. -/
lemma cycle_of_all_have_parent (edges : List (Nat × Nat)) (S : List Nat) (hne : S ≠ [])
    (hpar : ∀ v ∈ S, ∃ u ∈ S, (u, v) ∈ edges) :
    ∃ v, Relation.TransGen (fun a b => (a, b) ∈ edges) v v := by
  classical
  obtain ⟨v0, hv0⟩ : ∃ v, v ∈ S := by
    cases S with
    | nil => exact absurd rfl hne
    | cons a l => exact ⟨a, List.mem_cons_self a l⟩
  choose! parent hmem hedge using hpar
  set g : Nat → Nat := fun i => parent^[i] v0 with hg
  have hgS : ∀ i, g i ∈ S := by
    intro i
    induction i with
    | zero => exact hv0
    | succ i ih =>
      rw [hg]
      simp only [Function.iterate_succ_apply']
      exact hmem _ ih
  have hgE : ∀ i, (g (i + 1), g i) ∈ edges := by
    intro i
    have := hedge (g i) (hgS i)
    rw [hg]
    simp only [Function.iterate_succ_apply']
    exact this
  have hchain : ∀ k i, Relation.TransGen (fun a b => (a, b) ∈ edges) (g (i + k + 1)) (g i) := by
    intro k
    induction k with
    | zero => exact fun i => Relation.TransGen.single (hgE i)
    | succ k ih =>
      intro i
      have h1 : (g (i + (k + 1) + 1), g (i + k + 1)) ∈ edges := by
        have := hgE (i + k + 1)
        rwa [show i + k + 1 + 1 = i + (k + 1) + 1 from by omega] at this
      exact Relation.TransGen.head h1 (ih i)
  have hcard : S.toFinset.card < (Finset.range (S.length + 1)).card := by
    rw [Finset.card_range]
    exact Nat.lt_succ_of_le (List.toFinset_card_le S)
  have hmaps : ∀ i ∈ Finset.range (S.length + 1), g i ∈ S.toFinset :=
    fun i _ => List.mem_toFinset.mpr (hgS i)
  obtain ⟨a, ha, b, hb, hne2, heq⟩ :=
    Finset.exists_ne_map_eq_of_card_lt_of_maps_to hcard hmaps
  rcases Nat.lt_or_ge a b with hab | hab
  · refine ⟨g b, ?_⟩
    have := hchain (b - a - 1) a
    rw [show a + (b - a - 1) + 1 = b from by omega] at this
    rwa [heq] at this
  · have hba : b < a := Nat.lt_of_le_of_ne hab (fun h => hne2 h.symm)
    refine ⟨g a, ?_⟩
    have := hchain (a - b - 1) b
    rw [show b + (a - b - 1) + 1 = a from by omega] at this
    rwa [← heq] at this

/-! ### The generation-loop invariant -/

/-- One pass of `processGen` preserves the invariant and leaves exactly the
old map's keys split between the next generation and the new map. -/
lemma kahnInv_step {edges : List (Nat × Nat)} {nodes out gen : List Nat}
    {indeg : List (Nat × Nat)} (hnodes : nodes.Nodup)
    (inv : KahnInv edges nodes out gen indeg) :
    KahnInv edges nodes (out ++ gen) (processGen edges gen indeg).1
      (processGen edges gen indeg).2 ∧
    (processGen edges gen indeg).1.length + (processGen edges gen indeg).2.length =
      indeg.length := by
  have hall : ((out ++ gen) ++ indeg.map (fun p => p.1)).Nodup :=
    inv.perm.nodup_iff.mpr hnodes
  obtain ⟨hog, hkm, hdisj2⟩ := List.nodup_append.mp hall
  obtain ⟨hout, hgen, hdisj1⟩ := List.nodup_append.mp hog
  have hgenkeys : ∀ v, v ∈ gen → v ∈ indeg.map (fun p => p.1) → False := by
    intro v hv hk
    exact hdisj2 (List.mem_append_right out hv) hk
  have houtgen : ∀ v, v ∈ out → v ∈ gen → False := fun v hv hg => hdisj1 hv hg
  have houtkeys : ∀ v, v ∈ out → v ∈ indeg.map (fun p => p.1) → False := by
    intro v hv hk
    exact hdisj2 (List.mem_append_left gen hv) hk
  -- hypotheses of the fold characterisation
  have hnd0 : (([] : List Nat) ++ indeg.map (fun p => p.1)).Nodup := by simpa using hkm
  have hpos0 : ∀ p ∈ indeg, 0 < p.2 := fun p hp => (inv.counts p hp).2
  have hcount_cs : ∀ v, (gen.flatMap (succs edges)).count v = inCount edges gen v :=
    fun v => count_flatMap_succs edges v gen hgen
  have hsplit : ∀ v, inCount edges (gen ++ indeg.map (fun q => q.1)) v =
      inCount edges gen v + inCount edges (indeg.map (fun q => q.1)) v := by
    intro v
    unfold inCount
    rw [show (edges.filter (fun e => decide (e.2 = v ∧ e.1 ∈ gen ++ indeg.map (fun q => q.1)))) =
        edges.filter (fun e =>
          (decide (e.2 = v ∧ e.1 ∈ gen)) ||
            (decide (e.2 = v ∧ e.1 ∈ indeg.map (fun q => q.1)))) from
      List.filter_congr (fun e _ => by
        simp only [List.mem_append, Bool.decide_and, Bool.decide_or,
          Bool.and_or_distrib_left])]
    exact length_filter_or_disjoint _ _ edges (fun e _ h => by
      obtain ⟨h1, h2⟩ := h
      simp only [decide_eq_true_eq] at h1 h2
      exact hgenkeys e.1 h1.2 h2.2)
  have hbound0 : ∀ v n, lk indeg v = some n → (gen.flatMap (succs edges)).count v ≤ n := by
    intro v n hv
    have hc := (inv.counts (v, n) (mem_of_lk hv)).1
    rw [hcount_cs v]
    rw [show ((v, n).2 : Nat) = n from rfl] at hc
    rw [hc, hsplit v]
    exact Nat.le_add_right _ _
  have hmiss0 : ∀ v, lk indeg v = none → (gen.flatMap (succs edges)).count v = 0 := by
    intro v hv
    rw [hcount_cs v]
    by_contra hpos
    obtain ⟨e, he, he2, he1⟩ := inCount_pos_has_src (Nat.pos_of_ne_zero hpos)
    have hvkeys : v ∉ indeg.map (fun p => p.1) := lk_none_iff.mp hv
    have hvnodes : v ∈ nodes := he2 ▸ inv.tgtMem e he
    have := inv.perm.symm.mem_iff.mp hvnodes
    rcases List.mem_append.mp this with hvog | hvk
    · rcases List.mem_append.mp hvog with hvo | hvg
      · exact houtgen e.1 (inv.outClosed e he (he2 ▸ hvo)) he1
      · have h0 := inv.genReady v hvg
        exact inCount_zero_no_src h0 e he he2 (List.mem_append_left _ he1)
    · exact hvkeys hvk
  have hspec := foldl_decChild_spec (gen.flatMap (succs edges)) [] indeg
    hnd0 hpos0 hbound0 hmiss0
  rw [← processGen_eq_foldl] at hspec
  obtain ⟨⟨dl, hdl⟩, hperm0, hc3, hc4, hc5, hc6⟩ := hspec
  rw [List.nil_append] at hdl
  have hperm1 : ((processGen edges gen indeg).1 ++
      (processGen edges gen indeg).2.map (fun p => p.1)).Perm
      (indeg.map (fun p => p.1)) := by
    have := hperm0
    rwa [List.nil_append] at this
  -- every key of the old map is either in the next generation or in the new map
  have hold_some : ∀ p, p ∈ (processGen edges gen indeg).2 →
      ∃ n, lk indeg p.1 = some n ∧
        inCount edges gen p.1 < n ∧
        p.2 = n - inCount edges gen p.1 := by
    intro p hp
    have hkeys' : ((processGen edges gen indeg).1 ++
        (processGen edges gen indeg).2.map (fun q => q.1)).Nodup :=
      hperm1.nodup_iff.mpr hkm
    have hlkp : lk (processGen edges gen indeg).2 p.1 = some p.2 :=
      lk_of_mem_nodup (List.nodup_append.mp hkeys').2.1 hp
    cases hlk : lk indeg p.1 with
    | none =>
      have := (hc5 p.1 hlk).1
      rw [this] at hlkp
      cases hlkp
    | some n =>
      have hle := hbound0 p.1 n hlk
      rcases Nat.lt_or_ge ((gen.flatMap (succs edges)).count p.1) n with hlt | hge
      · have heq3 := hc3 p.1 n hlk hlt
        rw [heq3] at hlkp
        have hp2 := Option.some.inj hlkp
        rw [hcount_cs p.1] at hlt hp2
        exact ⟨n, rfl, hlt, hp2.symm⟩
      · have heq : (gen.flatMap (succs edges)).count p.1 = n := Nat.le_antisymm hle hge
        have := (hc4 p.1 n hlk heq).1
        rw [this] at hlkp
        cases hlkp
  have hnew_gen : ∀ v, v ∈ (processGen edges gen indeg).1 →
      ∃ n, lk indeg v = some n ∧ inCount edges gen v = n := by
    intro v hv
    cases hlk : lk indeg v with
    | none =>
      have := (hc5 v hlk).2.mp hv
      cases this
    | some n =>
      have hle := hbound0 v n hlk
      rcases Nat.lt_or_ge ((gen.flatMap (succs edges)).count v) n with hlt | hge
      · -- v would still be a key, contradicting nodup of gen' ++ keys'
        have hlkv := hc3 v n hlk hlt
        have hvk : v ∈ (processGen edges gen indeg).2.map (fun p => p.1) := by
          have := mem_of_lk hlkv
          exact List.mem_map_of_mem (fun p => p.1) this
        have hkeys' : ((processGen edges gen indeg).1 ++
            (processGen edges gen indeg).2.map (fun q => q.1)).Nodup :=
          hperm1.nodup_iff.mpr hkm
        exact absurd hvk ((List.nodup_append.mp hkeys').2.2 hv)
      · have heq : (gen.flatMap (succs edges)).count v = n := Nat.le_antisymm hle hge
        rw [hcount_cs v] at heq
        exact ⟨n, rfl, heq⟩
  have hsplitnew : ∀ v, inCount edges (indeg.map (fun q => q.1)) v =
      inCount edges ((processGen edges gen indeg).1 ++
        (processGen edges gen indeg).2.map (fun q => q.1)) v :=
    fun v => (inCount_perm edges hperm1.symm v)
  constructor
  · refine ⟨?_, ?_, ?_, ?_, ?_, inv.srcMem, inv.tgtMem⟩
    · -- permutation with nodes
      have h1 : ((out ++ gen) ++ ((processGen edges gen indeg).1 ++
          (processGen edges gen indeg).2.map (fun p => p.1))).Perm
          ((out ++ gen) ++ indeg.map (fun p => p.1)) :=
        List.Perm.append_left (out ++ gen) hperm1
      have h2 := h1.trans inv.perm
      rwa [← List.append_assoc] at h2
    · -- counts of the new map
      intro p hp
      obtain ⟨n, hlk, hlt, hval⟩ := hold_some p hp
      have hc := (inv.counts (p.1, n) (mem_of_lk hlk)).1
      rw [show ((p.1, n).2 : Nat) = n from rfl, hsplit p.1] at hc
      refine ⟨?_, hc6 p hp⟩
      rw [← hsplitnew p.1]
      omega
    · -- the next generation is ready
      intro v hv
      obtain ⟨n, hlk, heq⟩ := hnew_gen v hv
      have hc := (inv.counts (v, n) (mem_of_lk hlk)).1
      rw [show ((v, n).2 : Nat) = n from rfl, hsplit v] at hc
      rw [← hsplitnew v]
      omega
    · -- emitted order respects the edges
      intro e he h2
      rcases List.mem_append.mp h2 with hvo | hvg
      · exact (inv.ordered e he hvo).append_right gen
      · have h0 := inv.genReady e.2 hvg
        have hnot := inCount_zero_no_src h0 e he rfl
        have h1nodes : e.1 ∈ (out ++ gen) ++ indeg.map (fun p => p.1) :=
          inv.perm.symm.mem_iff.mp (inv.srcMem e he)
        have h1out : e.1 ∈ out := by
          rcases List.mem_append.mp h1nodes with hog | hk
          · rcases List.mem_append.mp hog with ho | hg
            · exact ho
            · exact absurd (List.mem_append_left _ hg) hnot
          · exact absurd (List.mem_append_right _ hk) hnot
        exact Before.of_mem_append h1out hvg
    · -- emitted set is closed under predecessors
      intro e he h2
      rcases List.mem_append.mp h2 with hvo | hvg
      · exact List.mem_append_left gen (inv.outClosed e he hvo)
      · have h0 := inv.genReady e.2 hvg
        have hnot := inCount_zero_no_src h0 e he rfl
        have h1nodes : e.1 ∈ (out ++ gen) ++ indeg.map (fun p => p.1) :=
          inv.perm.symm.mem_iff.mp (inv.srcMem e he)
        rcases List.mem_append.mp h1nodes with hog | hk
        · rcases List.mem_append.mp hog with ho | hg
          · exact List.mem_append_left gen ho
          · exact absurd (List.mem_append_left _ hg) hnot
        · exact absurd (List.mem_append_right _ hk) hnot
  · -- size bookkeeping
    have := hperm1.length_eq
    rw [List.length_append, List.length_map, List.length_map] at this
    exact this

/-! ### Initial state, soundness and completeness of the loop -/

lemma keys_initIndeg (nodes : List Nat) (edges : List (Nat × Nat)) :
    (initIndeg nodes edges).map (fun p => p.1) =
      nodes.filter (fun v => ¬ indegAll edges v = 0) := by
  induction nodes with
  | nil => rfl
  | cons v ns ih =>
    unfold initIndeg at ih ⊢
    by_cases hv : indegAll edges v = 0
    · rw [List.filterMap_cons, if_pos hv, List.filter_cons_of_neg (by simpa using hv)]
      exact ih
    · rw [List.filterMap_cons, if_neg hv, List.filter_cons_of_pos (by simpa using hv),
        List.map_cons]
      exact congrArg _ ih

lemma mem_initIndeg {nodes : List Nat} {edges : List (Nat × Nat)} {p : Nat × Nat}
    (hp : p ∈ initIndeg nodes edges) :
    p.1 ∈ nodes ∧ p.2 = indegAll edges p.1 ∧ 0 < p.2 := by
  obtain ⟨v, hv, heq⟩ := List.mem_filterMap.mp hp
  by_cases h : indegAll edges v = 0
  · rw [if_pos h] at heq
    cases heq
  · rw [if_neg h] at heq
    cases heq
    exact ⟨hv, rfl, Nat.pos_of_ne_zero h⟩

lemma initGen_keys_perm (nodes : List Nat) (edges : List (Nat × Nat)) :
    (initGen nodes edges ++ (initIndeg nodes edges).map (fun p => p.1)).Perm nodes := by
  rw [keys_initIndeg]
  unfold initGen
  have halign : nodes.filter (fun v => (¬ indegAll edges v = 0 : Prop)) =
      nodes.filter (fun a => !(decide (indegAll edges a = 0))) :=
    List.filter_congr (fun a _ => by simp)
  rw [halign]
  exact List.filter_append_perm (fun v => decide (indegAll edges v = 0)) nodes

lemma kahnInv_init {edges : List (Nat × Nat)} {nodes : List Nat}
    (hsrc : ∀ e ∈ edges, e.1 ∈ nodes) (htgt : ∀ e ∈ edges, e.2 ∈ nodes) :
    KahnInv edges nodes [] (initGen nodes edges) (initIndeg nodes edges) := by
  have hperm := initGen_keys_perm nodes edges
  have hfull : ∀ v, inCount edges
      (initGen nodes edges ++ (initIndeg nodes edges).map (fun p => p.1)) v =
      indegAll edges v := by
    intro v
    unfold inCount indegAll
    exact congrArg _ (List.filter_congr (fun e he => by
      simp [hperm.mem_iff.mpr (hsrc e he)]))
  refine ⟨by simpa using hperm, ?_, ?_, ?_, ?_, hsrc, htgt⟩
  · intro p hp
    obtain ⟨h1, h2, h3⟩ := mem_initIndeg hp
    exact ⟨by rw [hfull p.1]; exact h2, h3⟩
  · intro v hv
    have := List.of_mem_filter hv
    rw [hfull v]
    simpa using this
  · intro e he h2
    cases h2
  · intro e he h2
    cases h2

lemma genLoop_sound {edges : List (Nat × Nat)} {nodes : List Nat} (hnodes : nodes.Nodup) :
    ∀ (fuel : Nat) (gen : List Nat) (indeg : List (Nat × Nat)) (out res : List Nat),
      KahnInv edges nodes out gen indeg →
      genLoop edges fuel gen indeg out = some res →
      res.Perm nodes ∧ (∀ e ∈ edges, e.2 ∈ res → Before res e.1 e.2)
  | fuel, [], indeg, out, res, inv, heq => by
    rw [genLoop] at heq
    by_cases hind : indeg.isEmpty
    · rw [if_pos hind] at heq
      cases heq
      have hkeys : indeg.map (fun p => p.1) = [] := by
        rw [List.isEmpty_iff] at hind
        rw [hind]
        rfl
      have hperm := inv.perm
      rw [hkeys, List.append_nil, List.append_nil] at hperm
      exact ⟨hperm, fun e he hv => inv.ordered e he hv⟩
    · rw [if_neg hind] at heq
      cases heq
  | 0, g :: gen', indeg, out, res, inv, heq => by
    rw [genLoop] at heq
    cases heq
  | fuel + 1, g :: gen', indeg, out, res, inv, heq => by
    simp only [genLoop] at heq
    obtain ⟨inv', hsize⟩ := kahnInv_step hnodes inv
    exact genLoop_sound hnodes fuel _ _ _ res inv' heq

lemma genLoop_complete {edges : List (Nat × Nat)} {nodes : List Nat} (hnodes : nodes.Nodup)
    (hacyc : ∀ v, ¬ Relation.TransGen (fun a b => (a, b) ∈ edges) v v) :
    ∀ (fuel : Nat) (gen : List Nat) (indeg : List (Nat × Nat)) (out : List Nat),
      KahnInv edges nodes out gen indeg →
      gen.length + indeg.length < fuel →
      (genLoop edges fuel gen indeg out).isSome
  | fuel, [], indeg, out, inv, hfuel => by
    rw [genLoop]
    by_cases hind : indeg.isEmpty
    · rw [if_pos hind]
      rfl
    · exfalso
      have hindne : indeg ≠ [] := by
        intro h
        rw [h] at hind
        simp at hind
      have hkeysne : indeg.map (fun p => p.1) ≠ [] := by
        intro h
        exact hindne (List.map_eq_nil_iff.mp h)
      obtain ⟨v, hv⟩ := cycle_of_all_have_parent edges (indeg.map (fun p => p.1)) hkeysne
        (by
          intro v hv
          obtain ⟨p, hp, rfl⟩ := List.mem_map.mp hv
          have hc := inv.counts p hp
          have hpos : 0 < inCount edges ([] ++ indeg.map (fun q => q.1)) p.1 :=
            hc.1 ▸ hc.2
          obtain ⟨e, he, he2, he1⟩ := inCount_pos_has_src hpos
          rw [List.nil_append] at he1
          refine ⟨e.1, he1, ?_⟩
          rw [← he2]
          exact he)
      exact hacyc v hv
  | 0, g :: gen', indeg, out, inv, hfuel => by
    rw [List.length_cons] at hfuel
    omega
  | fuel + 1, g :: gen', indeg, out, inv, hfuel => by
    simp only [genLoop]
    obtain ⟨inv', hsize⟩ := kahnInv_step hnodes inv
    apply genLoop_complete hnodes hacyc fuel _ _ _ inv'
    rw [hsize]
    rw [List.length_cons] at hfuel
    omega

lemma topologicalSort_sound {nodes : List Nat} {edges : List (Nat × Nat)} {res : List Nat}
    (hnodes : nodes.Nodup) (hsrc : ∀ e ∈ edges, e.1 ∈ nodes)
    (htgt : ∀ e ∈ edges, e.2 ∈ nodes)
    (h : topologicalSort nodes edges = some res) :
    res.Perm nodes ∧ (∀ e ∈ edges, e.2 ∈ res → Before res e.1 e.2) :=
  genLoop_sound hnodes _ _ _ _ res (kahnInv_init hsrc htgt) h

lemma topologicalSort_complete {nodes : List Nat} {edges : List (Nat × Nat)}
    (hnodes : nodes.Nodup) (hsrc : ∀ e ∈ edges, e.1 ∈ nodes)
    (htgt : ∀ e ∈ edges, e.2 ∈ nodes) (hacyc : Acyclic edges) :
    (topologicalSort nodes edges).isSome := by
  unfold topologicalSort
  apply genLoop_complete hnodes hacyc _ _ _ _ (kahnInv_init hsrc htgt)
  have hlen := (initGen_keys_perm nodes edges).length_eq
  rw [List.length_append, List.length_map] at hlen
  omega

/-! ### The SQL sort and the graph builder -/

lemma insertByPriorityDesc_perm (t : TaskRow) (l : List TaskRow) :
    (insertByPriorityDesc t l).Perm (t :: l) := by
  induction l with
  | nil => exact List.Perm.refl _
  | cons u us ih =>
    rw [insertByPriorityDesc]
    by_cases h : t.priority > u.priority
    · rw [if_pos h]
    · rw [if_neg h]
      exact (List.Perm.cons u ih).trans (List.Perm.swap t u us)

lemma sortByPriorityDesc_perm : ∀ l : List TaskRow, (sortByPriorityDesc l).Perm l
  | [] => List.Perm.refl _
  | t :: ts => by
    rw [sortByPriorityDesc]
    exact (insertByPriorityDesc_perm t (sortByPriorityDesc ts)).trans
      (List.Perm.cons t (sortByPriorityDesc_perm ts))

lemma pendingTasks_perm (db : Db) :
    (pendingTasks db).Perm (db.tasks.filter (fun t => t.status = "pending")) :=
  sortByPriorityDesc_perm _

lemma pendingTasks_status {db : Db} {t : TaskRow} (ht : t ∈ pendingTasks db) :
    t.status = "pending" := by
  have hmem := (pendingTasks_perm db).mem_iff.mp ht
  have := (List.mem_filter.mp hmem).2
  simpa using this

lemma pendingTasks_sub {db : Db} {t : TaskRow} (ht : t ∈ pendingTasks db) :
    t ∈ db.tasks := by
  have hmem := (pendingTasks_perm db).mem_iff.mp ht
  exact (List.mem_filter.mp hmem).1

lemma pendingTasks_ids_nodup {db : Db} (h : (db.tasks.map (fun t => t.id)).Nodup) :
    ((pendingTasks db).map (fun t => t.id)).Nodup := by
  have hperm := (pendingTasks_perm db).map (fun t => t.id)
  rw [hperm.nodup_iff]
  have hsub : (db.tasks.filter (fun t => t.status = "pending")).Sublist db.tasks :=
    List.filter_sublist db.tasks
  exact h.sublist (hsub.map (fun t => t.id))

lemma mem_addEdgeOnce {es : List (Nat × Nat)} {x e : Nat × Nat} :
    x ∈ addEdgeOnce es e ↔ x ∈ es ∨ x = e := by
  unfold addEdgeOnce
  by_cases h : e ∈ es
  · rw [if_pos h]
    constructor
    · exact Or.inl
    · rintro (hx | rfl)
      exacts [hx, h]
  · rw [if_neg h]
    simp [List.mem_append]

lemma mem_buildEdges_aux (nodes : List Nat) :
    ∀ (deps : List (Nat × Nat)) (acc : List (Nat × Nat)) (x : Nat × Nat),
      (x ∈ deps.foldl (fun es td =>
        if td.1 ∈ nodes ∧ td.2 ∈ nodes then addEdgeOnce es (td.2, td.1) else es) acc ↔
      x ∈ acc ∨ ∃ td ∈ deps, td.1 ∈ nodes ∧ td.2 ∈ nodes ∧ x = (td.2, td.1))
  | [], acc, x => by simp
  | td :: deps, acc, x => by
    rw [List.foldl_cons]
    by_cases h : td.1 ∈ nodes ∧ td.2 ∈ nodes
    · rw [if_pos h, mem_buildEdges_aux nodes deps (addEdgeOnce acc (td.2, td.1)) x,
        mem_addEdgeOnce]
      simp only [List.mem_cons]
      constructor
      · rintro ((hx | rfl) | ⟨td', htd', h1, h2, rfl⟩)
        · exact Or.inl hx
        · exact Or.inr ⟨td, Or.inl rfl, h.1, h.2, rfl⟩
        · exact Or.inr ⟨td', Or.inr htd', h1, h2, rfl⟩
      · rintro (hx | ⟨td', htd' | htd', h1, h2, rfl⟩)
        · exact Or.inl (Or.inl hx)
        · subst htd'
          exact Or.inl (Or.inr rfl)
        · exact Or.inr ⟨td', htd', h1, h2, rfl⟩
    · rw [if_neg h, mem_buildEdges_aux nodes deps acc x]
      simp only [List.mem_cons]
      constructor
      · rintro (hx | ⟨td', htd', h1, h2, rfl⟩)
        · exact Or.inl hx
        · exact Or.inr ⟨td', Or.inr htd', h1, h2, rfl⟩
      · rintro (hx | ⟨td', htd' | htd', h1, h2, rfl⟩)
        · exact Or.inl hx
        · subst htd'
          exact absurd ⟨h1, h2⟩ h
        · exact Or.inr ⟨td', htd', h1, h2, rfl⟩

lemma mem_buildEdges {nodes : List Nat} {deps : List (Nat × Nat)} {x : Nat × Nat} :
    x ∈ buildEdges nodes deps ↔
      ∃ td ∈ deps, td.1 ∈ nodes ∧ td.2 ∈ nodes ∧ x = (td.2, td.1) := by
  unfold buildEdges
  rw [mem_buildEdges_aux]
  simp

lemma buildEdges_src {nodes : List Nat} {deps : List (Nat × Nat)} :
    ∀ e ∈ buildEdges nodes deps, e.1 ∈ nodes := by
  intro e he
  obtain ⟨td, _, h1, h2, rfl⟩ := mem_buildEdges.mp he
  exact h2

lemma buildEdges_tgt {nodes : List Nat} {deps : List (Nat × Nat)} :
    ∀ e ∈ buildEdges nodes deps, e.2 ∈ nodes := by
  intro e he
  obtain ⟨td, _, h1, h2, rfl⟩ := mem_buildEdges.mp he
  exact h1

lemma buildEdges_filter_aux (nodes : List Nat) :
    ∀ (deps acc : List (Nat × Nat)),
      (deps.filter (fun td => td.1 ∈ nodes ∧ td.2 ∈ nodes)).foldl
        (fun es td =>
          if td.1 ∈ nodes ∧ td.2 ∈ nodes then addEdgeOnce es (td.2, td.1) else es) acc =
      deps.foldl
        (fun es td =>
          if td.1 ∈ nodes ∧ td.2 ∈ nodes then addEdgeOnce es (td.2, td.1) else es) acc
  | [], _ => rfl
  | td :: deps, acc => by
    by_cases h : td.1 ∈ nodes ∧ td.2 ∈ nodes
    · rw [List.filter_cons_of_pos (by simpa using h), List.foldl_cons, List.foldl_cons]
      exact buildEdges_filter_aux nodes deps _
    · rw [List.filter_cons_of_neg (by simpa using h), List.foldl_cons, if_neg h]
      exact buildEdges_filter_aux nodes deps acc

/-- A dependency row with an endpoint outside the pending node set never
reaches the graph: filtering such rows away changes nothing. -/
lemma buildEdges_filter_inert (nodes : List Nat) (deps : List (Nat × Nat)) :
    buildEdges nodes (deps.filter (fun td => td.1 ∈ nodes ∧ td.2 ∈ nodes)) =
      buildEdges nodes deps :=
  buildEdges_filter_aux nodes deps []

/-! ### Behaviour of `get_tasks_ordered` on acyclic snapshots -/

lemma taskOfId_id {tasks : List TaskRow} (hnd : (tasks.map (fun t => t.id)).Nodup)
    {t : TaskRow} (ht : t ∈ tasks) : taskOfId tasks t.id = t := by
  unfold taskOfId
  rw [find?_eq_some_of_nodup_ids hnd ht]
  rfl

lemma mem_foldl_append_new {α : Type} [DecidableEq α] :
    ∀ (l : List α) (acc : List α) (x : α),
      x ∈ l.foldl (fun acc t => if t ∈ acc then acc else acc ++ [t]) acc →
      x ∈ acc ∨ x ∈ l
  | [], _, _, h => Or.inl h
  | a :: l, acc, x, h => by
    rw [List.foldl_cons] at h
    by_cases ha : a ∈ acc
    · rw [if_pos ha] at h
      rcases mem_foldl_append_new l acc x h with h1 | h1
      exacts [Or.inl h1, Or.inr (List.mem_cons_of_mem a h1)]
    · rw [if_neg ha] at h
      rcases mem_foldl_append_new l (acc ++ [a]) x h with h1 | h1
      · rcases List.mem_append.mp h1 with h2 | h2
        · exact Or.inl h2
        · have : x = a := by simpa using h2
          exact Or.inr (this ▸ List.mem_cons_self a l)
      · exact Or.inr (List.mem_cons_of_mem a h1)

/-- On an acyclic pending graph, `get_tasks_ordered` returns (without any
exception) a permutation of the pending rows in which every edge's source
row appears strictly before its target row. -/
lemma getTasksOrdered_acyclic {db : Db}
    (hids : (db.tasks.map (fun t => t.id)).Nodup)
    (hacyc : Acyclic (buildEdges ((pendingTasks db).map (fun t => t.id)) db.dependencies)) :
    ∃ out, getTasksOrdered db = PyResult.ok out ∧ out.Perm (pendingTasks db) ∧
      ∀ e ∈ buildEdges ((pendingTasks db).map (fun t => t.id)) db.dependencies,
        ∀ ts tt : TaskRow, ts ∈ pendingTasks db → tt ∈ pendingTasks db →
          e.1 = ts.id → e.2 = tt.id → Before out ts tt := by
  have hnd : ((pendingTasks db).map (fun t => t.id)).Nodup := pendingTasks_ids_nodup hids
  have hsrcs : ∀ e ∈ buildEdges ((pendingTasks db).map (fun t => t.id)) db.dependencies,
      e.1 ∈ (pendingTasks db).map (fun t => t.id) := buildEdges_src
  have htgts : ∀ e ∈ buildEdges ((pendingTasks db).map (fun t => t.id)) db.dependencies,
      e.2 ∈ (pendingTasks db).map (fun t => t.id) := buildEdges_tgt
  have hsome := topologicalSort_complete hnd hsrcs htgts hacyc
  obtain ⟨order, horder⟩ := Option.isSome_iff_exists.mp hsome
  obtain ⟨hperm, hord⟩ := topologicalSort_sound hnd hsrcs htgts horder
  have hfm : order.filterMap (fun i => (pendingTasks db).find? (fun t => t.id = i)) =
      order.map (taskOfId (pendingTasks db)) := by
    refine filterMap_eq_map_of_forall (fun i hi => ?_)
    have hin : i ∈ (pendingTasks db).map (fun t => t.id) := hperm.mem_iff.mp hi
    obtain ⟨t, ht, rfl⟩ := List.mem_map.mp hin
    rw [find?_eq_some_of_nodup_ids hnd ht, taskOfId_id hnd ht]
  have hmapback : ((pendingTasks db).map (fun t => t.id)).map (taskOfId (pendingTasks db)) =
      pendingTasks db := by
    rw [List.map_map]
    have : ∀ t ∈ pendingTasks db,
        (taskOfId (pendingTasks db) ∘ fun t => t.id) t = t :=
      fun t ht => taskOfId_id hnd ht
    rw [List.map_congr_left this]
    exact List.map_id' _
  have houtperm : (order.map (taskOfId (pendingTasks db))).Perm (pendingTasks db) :=
    (hperm.map (taskOfId (pendingTasks db))).trans (by rw [hmapback])
  have hfold : (pendingTasks db).foldl (fun acc t => if t ∈ acc then acc else acc ++ [t])
      (order.map (taskOfId (pendingTasks db))) = order.map (taskOfId (pendingTasks db)) :=
    foldl_append_new_eq_self _ _ (fun t ht => houtperm.symm.mem_iff.mp ht)
  refine ⟨order.map (taskOfId (pendingTasks db)), ?_, houtperm, ?_⟩
  · unfold getTasksOrdered orderResult
    rw [horder]
    simp only [hfm, hfold]
  · intro e he ts tt hts htt h1 h2
    have htt2 : e.2 ∈ order := hperm.symm.mem_iff.mp
      (buildEdges_tgt e he)
    have hbe := hord e he htt2
    have := hbe.map (taskOfId (pendingTasks db))
    rw [h1, h2, taskOfId_id hnd hts, taskOfId_id hnd htt] at this
    exact this

/-- An `ok` result of `get_tasks_ordered` only ever contains pending rows. -/
lemma mem_of_getTasksOrdered_ok {db : Db} {out : List TaskRow}
    (h : getTasksOrdered db = PyResult.ok out) :
    ∀ t ∈ out, t ∈ pendingTasks db := by
  unfold getTasksOrdered orderResult at h
  cases htop : topologicalSort ((pendingTasks db).map (fun t => t.id))
      (buildEdges ((pendingTasks db).map (fun t => t.id)) db.dependencies) with
  | none =>
    rw [htop] at h
    simp [isInstanceOfNetworkXError] at h
  | some order =>
    rw [htop] at h
    simp only [PyResult.ok.injEq] at h
    intro t ht
    rw [← h] at ht
    rcases mem_foldl_append_new _ _ _ ht with h1 | h1
    · obtain ⟨i, _, hfind⟩ := List.mem_filterMap.mp h1
      exact List.mem_of_find?_eq_some hfind
    · exact h1

/-! ### Job ids are distinct for distinct (task, offset) keys -/

lemma underscored_data (s : String) : (underscored s).data = replaceSpaceChars s.data := rfl

lemma immediateKey_ne_notifKey (tid : Nat) (s : String) :
    immediateKey tid ≠ notifKey tid s := by
  intro h
  have h2 : (immediateKey tid).data = (notifKey tid s).data := congrArg String.data h
  unfold immediateKey notifKey at h2
  rw [String.data_append, String.data_append, String.data_append, String.data_append] at h2
  have h3 : ('i' :: "mmediate_test_".data) ++ (toString tid).data =
      ('n' :: "otification_".data) ++ (toString tid).data ++ "_".data ++
        (underscored s).data := h2
  simp only [List.cons_append, List.cons.injEq] at h3
  exact absurd h3.1 (by decide)

lemma notifKey_inj_label {tid : Nat} {s1 s2 : String}
    (h : notifKey tid s1 = notifKey tid s2) : underscored s1 = underscored s2 := by
  have h2 : (notifKey tid s1).data = (notifKey tid s2).data := congrArg String.data h
  unfold notifKey at h2
  rw [String.data_append, String.data_append, String.data_append, String.data_append,
    String.data_append, String.data_append] at h2
  rw [List.append_assoc, List.append_assoc, List.append_assoc, List.append_assoc] at h2
  have h3 := List.append_cancel_left h2
  have h4 := List.append_cancel_left h3
  have h5 := List.append_cancel_left h4
  exact String.ext h5

lemma notifKey_ne_of_labels {tid : Nat} {s1 s2 : String}
    (h : underscored s1 ≠ underscored s2) : notifKey tid s1 ≠ notifKey tid s2 :=
  fun he => h (notifKey_inj_label he)

lemma key24_ne_key1 (tid : Nat) : notifKey tid "24 hours" ≠ notifKey tid "1 hour" :=
  notifKey_ne_of_labels (by decide)

lemma key24_ne_key5 (tid : Nat) : notifKey tid "24 hours" ≠ notifKey tid "5 minutes" :=
  notifKey_ne_of_labels (by decide)

lemma key1_ne_key5 (tid : Nat) : notifKey tid "1 hour" ≠ notifKey tid "5 minutes" :=
  notifKey_ne_of_labels (by decide)

/-! ### Lookup behaviour of the job store -/

lemma find?_map_replace (jid : String) (j : Job) :
    ∀ jobs : List (String × Job), (jobs.find? (fun p => p.1 = jid)).isSome →
      (jobs.map (fun p => if p.1 = jid then (jid, j) else p)).find?
        (fun p => p.1 = jid) = some (jid, j)
  | [], h => by simp at h
  | p :: jobs, h => by
    by_cases hp : p.1 = jid
    · rw [List.map_cons, if_pos hp, List.find?_cons_of_pos _ (by simp)]
    · rw [List.find?_cons_of_neg _ (by simpa using hp)] at h
      rw [List.map_cons, if_neg hp, List.find?_cons_of_neg _ (by simpa using hp)]
      exact find?_map_replace jid j jobs h

lemma find?_append_none {α : Type} {p : α → Bool} :
    ∀ {l : List α} (l' : List α), l.find? p = none → (l ++ l').find? p = l'.find? p
  | [], l', _ => rfl
  | a :: l, l', h => by
    by_cases ha : p a
    · rw [List.find?_cons_of_pos _ ha] at h
      cases h
    · rw [List.find?_cons_of_neg _ (by simpa using ha)] at h
      rw [List.cons_append, List.find?_cons_of_neg _ (by simpa using ha)]
      exact find?_append_none l' h

lemma find?_addJob_self (jobs : List (String × Job)) (jid : String) (j : Job) :
    (addJobReplaceExisting jobs jid j).find? (fun p => p.1 = jid) = some (jid, j) := by
  unfold addJobReplaceExisting
  by_cases h : (jobs.find? (fun p => p.1 = jid)).isSome
  · rw [if_pos h]
    exact find?_map_replace jid j jobs h
  · rw [if_neg h]
    have hnone : jobs.find? (fun p => p.1 = jid) = none := by
      cases hf : jobs.find? (fun p => p.1 = jid) with
      | none => rfl
      | some q => rw [hf] at h; simp at h
    rw [find?_append_none _ hnone, List.find?_cons_of_pos _ (by simp)]

lemma find?_addJob_ne (jobs : List (String × Job)) (jid : String) (j : Job) (k : String)
    (hne : k ≠ jid) :
    (addJobReplaceExisting jobs jid j).find? (fun p => p.1 = k) =
      jobs.find? (fun p => p.1 = k) := by
  unfold addJobReplaceExisting
  by_cases h : (jobs.find? (fun p => p.1 = jid)).isSome
  · rw [if_pos h]
    clear h
    induction jobs with
    | nil => rfl
    | cons p jobs ih =>
      by_cases hp : p.1 = jid
      · rw [List.map_cons, if_pos hp,
          List.find?_cons_of_neg _ (by simpa using fun he : jid = k => hne he.symm),
          List.find?_cons_of_neg _ (by
            simpa using fun he : p.1 = k => hne (he.symm.trans hp))]
        exact ih
      · rw [List.map_cons, if_neg hp]
        by_cases hk : p.1 = k
        · rw [List.find?_cons_of_pos _ (by simpa using hk),
            List.find?_cons_of_pos _ (by simpa using hk)]
        · rw [List.find?_cons_of_neg _ (by simpa using hk),
            List.find?_cons_of_neg _ (by simpa using hk)]
          exact ih
  · rw [if_neg h]
    have hnone : jobs.find? (fun p => p.1 = jid) = none := by
      cases hf : jobs.find? (fun p => p.1 = jid) with
      | none => rfl
      | some q => rw [hf] at h; simp at h
    cases hf : jobs.find? (fun p => p.1 = k) with
    | some q =>
      clear h hnone
      induction jobs with
      | nil => cases hf
      | cons p jobs ih =>
        by_cases hk : p.1 = k
        · rw [List.find?_cons_of_pos _ (by simpa using hk)] at hf
          rw [List.cons_append, List.find?_cons_of_pos _ (by simpa using hk)]
          exact hf
        · rw [List.find?_cons_of_neg _ (by simpa using hk)] at hf
          rw [List.cons_append, List.find?_cons_of_neg _ (by simpa using hk)]
          exact ih hf
    | none =>
      rw [find?_append_none _ hf,
        List.find?_cons_of_neg _ (by simpa using fun he : jid = k => hne he.symm),
        List.find?_nil]

lemma find?_if_addJob_ne (js : List (String × Job)) (c : Prop) [Decidable c]
    (kid : String) (j : Job) (k : String) (hne : k ≠ kid) :
    (if c then addJobReplaceExisting js kid j else js).find? (fun p => p.1 = k) =
      js.find? (fun p => p.1 = k) := by
  by_cases hc : c
  · rw [if_pos hc]
    exact find?_addJob_ne js kid j k hne
  · rw [if_neg hc]

/-! ### Behaviour of `schedule_notification` -/

/-- An offset whose fire time is not strictly in the future is skipped: the
job slot under its key is exactly what it was before the call. -/
lemma schedule_notification_skip (jobs : List (String × Job)) (now : Int) (tid : Nat)
    (D : Int) {delta : Int} {label : String}
    (hmem : (delta, label) ∈ notification_intervals) (hskip : D - delta ≤ now) :
    (schedule_notification jobs now tid D).find? (fun p => p.1 = notifKey tid label) =
      jobs.find? (fun p => p.1 = notifKey tid label) := by
  unfold schedule_notification
  simp only [notification_intervals, List.foldl_cons, List.foldl_nil]
  simp only [notification_intervals, List.mem_cons, List.not_mem_nil, or_false,
    Prod.mk.injEq] at hmem
  rcases hmem with ⟨rfl, rfl⟩ | ⟨rfl, rfl⟩ | ⟨rfl, rfl⟩
  · rw [find?_if_addJob_ne _ _ _ _ _ (key24_ne_key5 tid),
      find?_if_addJob_ne _ _ _ _ _ (key24_ne_key1 tid),
      if_neg (by omega),
      find?_if_addJob_ne _ _ _ _ _ (immediateKey_ne_notifKey tid _).symm]
  · rw [find?_if_addJob_ne _ _ _ _ _ (key1_ne_key5 tid),
      if_neg (by omega),
      find?_if_addJob_ne _ _ _ _ _ (key24_ne_key1 tid).symm,
      find?_if_addJob_ne _ _ _ _ _ (immediateKey_ne_notifKey tid _).symm]
  · rw [if_neg (by omega),
      find?_if_addJob_ne _ _ _ _ _ (key1_ne_key5 tid).symm,
      find?_if_addJob_ne _ _ _ _ _ (key24_ne_key5 tid).symm,
      find?_if_addJob_ne _ _ _ _ _ (immediateKey_ne_notifKey tid _).symm]

/-- When `now + 30 < deadline`, the immediate-test job is registered with
fire time `now + 30` regardless of the offset jobs. -/
lemma schedule_notification_immediate (jobs : List (String × Job)) (now : Int) (tid : Nat)
    (D : Int) (h : now + 30 < D) :
    (schedule_notification jobs now tid D).find? (fun p => p.1 = immediateKey tid) =
      some (immediateKey tid,
        { run_date := now + 30, arg_task_id := tid, arg_interval_name := "IMMEDIATE_TEST" }) := by
  unfold schedule_notification
  simp only [notification_intervals, List.foldl_cons, List.foldl_nil]
  rw [find?_if_addJob_ne _ _ _ _ _ (immediateKey_ne_notifKey tid _),
    find?_if_addJob_ne _ _ _ _ _ (immediateKey_ne_notifKey tid _),
    find?_if_addJob_ne _ _ _ _ _ (immediateKey_ne_notifKey tid _),
    if_pos h, find?_addJob_self]

lemma length_addJob_le (jobs : List (String × Job)) (jid : String) (j : Job) :
    (addJobReplaceExisting jobs jid j).length ≤ jobs.length + 1 := by
  unfold addJobReplaceExisting
  by_cases h : (jobs.find? (fun p => p.1 = jid)).isSome
  · rw [if_pos h, List.length_map]
    omega
  · rw [if_neg h, List.length_append]
    simp

lemma length_if_addJob_le (js : List (String × Job)) (c : Prop) [Decidable c] (kid : String)
    (j : Job) : (if c then addJobReplaceExisting js kid j else js).length ≤ js.length + 1 := by
  by_cases hc : c
  · rw [if_pos hc]
    exact length_addJob_le js kid j
  · rw [if_neg hc]
    omega

lemma foldl_sched_length (now : Int) (tid : Nat) (D : Int) :
    ∀ (ivs : List (Int × String)) (js : List (String × Job)),
      (ivs.foldl (fun js iv =>
        if D - iv.1 > now then
          addJobReplaceExisting js (notifKey tid iv.2)
            { run_date := D - iv.1, arg_task_id := tid, arg_interval_name := iv.2 }
        else js) js).length ≤ js.length + ivs.length
  | [], js => by simp
  | iv :: ivs, js => by
    rw [List.foldl_cons]
    have h1 := length_if_addJob_le js (D - iv.1 > now) (notifKey tid iv.2)
      { run_date := D - iv.1, arg_task_id := tid, arg_interval_name := iv.2 }
    have h2 := foldl_sched_length now tid D ivs
      (if D - iv.1 > now then
        addJobReplaceExisting js (notifKey tid iv.2)
          { run_date := D - iv.1, arg_task_id := tid, arg_interval_name := iv.2 }
      else js)
    simp only [List.length_cons]
    omega

/-- A single registration call adds at most four jobs. -/
lemma schedule_notification_length_le (jobs : List (String × Job)) (now : Int) (tid : Nat)
    (D : Int) : (schedule_notification jobs now tid D).length ≤ jobs.length + 4 := by
  unfold schedule_notification
  simp only [notification_intervals]
  have h1 := length_if_addJob_le jobs (now + 30 < D) (immediateKey tid)
    { run_date := now + 30, arg_task_id := tid, arg_interval_name := "IMMEDIATE_TEST" }
  have h2 := foldl_sched_length now tid D notification_intervals
    (if now + 30 < D then
      addJobReplaceExisting jobs (immediateKey tid)
        { run_date := now + 30, arg_task_id := tid, arg_interval_name := "IMMEDIATE_TEST" }
    else jobs)
  simp only [notification_intervals, List.length_cons, List.length_nil] at h2
  omega

lemma addJob_not_found (jobs : List (String × Job)) (jid : String) (j : Job)
    (h : jobs.find? (fun p => p.1 = jid) = none) :
    addJobReplaceExisting jobs jid j = jobs ++ [(jid, j)] := by
  unfold addJobReplaceExisting
  rw [h]
  rfl

lemma map_replace_id (jid : String) (j : Job) :
    ∀ jobs : List (String × Job), (∀ q ∈ jobs, q.1 = jid → q = (jid, j)) →
      jobs.map (fun p => if p.1 = jid then (jid, j) else p) = jobs
  | [], _ => rfl
  | p :: jobs, h => by
    rw [List.map_cons, map_replace_id jid j jobs (fun q hq => h q (List.mem_cons_of_mem p hq))]
    by_cases hp : p.1 = jid
    · rw [if_pos hp, ← h p (List.mem_cons_self p jobs) hp]
    · rw [if_neg hp]

lemma addJob_already (jobs : List (String × Job)) (jid : String) (j : Job)
    (hsome : (jobs.find? (fun p => p.1 = jid)).isSome)
    (h : ∀ q ∈ jobs, q.1 = jid → q = (jid, j)) :
    addJobReplaceExisting jobs jid j = jobs := by
  unfold addJobReplaceExisting
  rw [if_pos hsome, map_replace_id jid j jobs h]

/-- A first registration on an empty store with every offset strictly in the
future produces exactly the four jobs. -/
lemma schedule_notification_empty_all_future (now : Int) (tid : Nat) (D : Int)
    (h : now + 86400 < D) :
    schedule_notification [] now tid D =
      [(immediateKey tid,
        { run_date := now + 30, arg_task_id := tid, arg_interval_name := "IMMEDIATE_TEST" }),
       (notifKey tid "24 hours",
        { run_date := D - 86400, arg_task_id := tid, arg_interval_name := "24 hours" }),
       (notifKey tid "1 hour",
        { run_date := D - 3600, arg_task_id := tid, arg_interval_name := "1 hour" }),
       (notifKey tid "5 minutes",
        { run_date := D - 300, arg_task_id := tid, arg_interval_name := "5 minutes" })] := by
  unfold schedule_notification
  simp only [notification_intervals, List.foldl_cons, List.foldl_nil]
  rw [if_pos (show now + 30 < D by omega), if_pos (show D - 86400 > now by omega),
    if_pos (show D - 3600 > now by omega), if_pos (show D - 300 > now by omega)]
  have f0 : (([] : List (String × Job)).find? (fun p => p.1 = immediateKey tid)) = none := rfl
  rw [addJob_not_found _ _ _ f0, List.nil_append]
  have f1 : ([(immediateKey tid, (⟨now + 30, tid, "IMMEDIATE_TEST"⟩ : Job))]).find?
      (fun p => p.1 = notifKey tid "24 hours") = none := by
    rw [List.find?_cons_of_neg _ (by simpa using immediateKey_ne_notifKey tid "24 hours"),
      List.find?_nil]
  rw [addJob_not_found _ _ _ f1, List.singleton_append]
  have f2 : ([(immediateKey tid, (⟨now + 30, tid, "IMMEDIATE_TEST"⟩ : Job)),
      (notifKey tid "24 hours", (⟨D - 86400, tid, "24 hours"⟩ : Job))]).find?
      (fun p => p.1 = notifKey tid "1 hour") = none := by
    rw [List.find?_cons_of_neg _ (by simpa using immediateKey_ne_notifKey tid "1 hour"),
      List.find?_cons_of_neg _ (by simpa using key24_ne_key1 tid),
      List.find?_nil]
  rw [addJob_not_found _ _ _ f2]
  have f3 : ([(immediateKey tid, (⟨now + 30, tid, "IMMEDIATE_TEST"⟩ : Job)),
      (notifKey tid "24 hours", (⟨D - 86400, tid, "24 hours"⟩ : Job))] ++
      [(notifKey tid "1 hour", (⟨D - 3600, tid, "1 hour"⟩ : Job))]).find?
      (fun p => p.1 = notifKey tid "5 minutes") = none := by
    rw [List.cons_append, List.cons_append, List.nil_append]
    rw [List.find?_cons_of_neg _ (by simpa using immediateKey_ne_notifKey tid "5 minutes"),
      List.find?_cons_of_neg _ (by simpa using key24_ne_key5 tid),
      List.find?_cons_of_neg _ (by simpa using key1_ne_key5 tid),
      List.find?_nil]
  rw [addJob_not_found _ _ _ f3]
  simp

/-- Registering the same deadline twice leaves the store unchanged: each
`add_job` call finds its own key and replaces the job with an identical one. -/
lemma schedule_notification_idem (now : Int) (tid : Nat) (D : Int)
    (h : now + 86400 < D) :
    schedule_notification (schedule_notification [] now tid D) now tid D =
      schedule_notification [] now tid D := by
  rw [schedule_notification_empty_all_future now tid D h]
  set jI : Job := ⟨now + 30, tid, "IMMEDIATE_TEST"⟩ with hjI
  set j24 : Job := ⟨D - 86400, tid, "24 hours"⟩ with hj24
  set j1 : Job := ⟨D - 3600, tid, "1 hour"⟩ with hj1
  set j5 : Job := ⟨D - 300, tid, "5 minutes"⟩ with hj5
  set L : List (String × Job) := [(immediateKey tid, jI), (notifKey tid "24 hours", j24),
    (notifKey tid "1 hour", j1), (notifKey tid "5 minutes", j5)] with hL
  unfold schedule_notification
  simp only [notification_intervals, List.foldl_cons, List.foldl_nil]
  rw [if_pos (show now + 30 < D by omega), if_pos (show D - 86400 > now by omega),
    if_pos (show D - 3600 > now by omega), if_pos (show D - 300 > now by omega)]
  have memL : ∀ q ∈ L, q = (immediateKey tid, jI) ∨ q = (notifKey tid "24 hours", j24) ∨
      q = (notifKey tid "1 hour", j1) ∨ q = (notifKey tid "5 minutes", j5) := by
    intro q hq
    rw [hL] at hq
    rcases List.mem_cons.mp hq with rfl | hq
    · exact Or.inl rfl
    rcases List.mem_cons.mp hq with rfl | hq
    · exact Or.inr (Or.inl rfl)
    rcases List.mem_cons.mp hq with rfl | hq
    · exact Or.inr (Or.inr (Or.inl rfl))
    rcases List.mem_cons.mp hq with rfl | hq
    · exact Or.inr (Or.inr (Or.inr rfl))
    · cases hq
  have e1 : addJobReplaceExisting L (immediateKey tid) jI = L := by
    refine addJob_already _ _ _ (by rw [hL, List.find?_cons_of_pos _ (by simp)]; rfl) ?_
    intro q hq hqk
    rcases memL q hq with rfl | rfl | rfl | rfl
    · rfl
    · exact absurd hqk.symm (immediateKey_ne_notifKey tid "24 hours")
    · exact absurd hqk.symm (immediateKey_ne_notifKey tid "1 hour")
    · exact absurd hqk.symm (immediateKey_ne_notifKey tid "5 minutes")
  have e2 : addJobReplaceExisting L (notifKey tid "24 hours") j24 = L := by
    refine addJob_already _ _ _ ?_ ?_
    · rw [hL, List.find?_cons_of_neg _ (by simpa using immediateKey_ne_notifKey tid "24 hours"),
        List.find?_cons_of_pos _ (by simp)]
      rfl
    · intro q hq hqk
      rcases memL q hq with rfl | rfl | rfl | rfl
      · exact absurd hqk (immediateKey_ne_notifKey tid "24 hours")
      · rfl
      · exact absurd hqk (key24_ne_key1 tid).symm
      · exact absurd hqk (key24_ne_key5 tid).symm
  have e3 : addJobReplaceExisting L (notifKey tid "1 hour") j1 = L := by
    refine addJob_already _ _ _ ?_ ?_
    · rw [hL, List.find?_cons_of_neg _ (by simpa using immediateKey_ne_notifKey tid "1 hour"),
        List.find?_cons_of_neg _ (by simpa using key24_ne_key1 tid),
        List.find?_cons_of_pos _ (by simp)]
      rfl
    · intro q hq hqk
      rcases memL q hq with rfl | rfl | rfl | rfl
      · exact absurd hqk (immediateKey_ne_notifKey tid "1 hour")
      · exact absurd hqk (key24_ne_key1 tid)
      · rfl
      · exact absurd hqk (key1_ne_key5 tid).symm
  have e4 : addJobReplaceExisting L (notifKey tid "5 minutes") j5 = L := by
    refine addJob_already _ _ _ ?_ ?_
    · rw [hL, List.find?_cons_of_neg _ (by simpa using immediateKey_ne_notifKey tid "5 minutes"),
        List.find?_cons_of_neg _ (by simpa using key24_ne_key5 tid),
        List.find?_cons_of_neg _ (by simpa using key1_ne_key5 tid),
        List.find?_cons_of_pos _ (by simp)]
      rfl
    · intro q hq hqk
      rcases memL q hq with rfl | rfl | rfl | rfl
      · exact absurd hqk (immediateKey_ne_notifKey tid "5 minutes")
      · exact absurd hqk (key24_ne_key5 tid)
      · exact absurd hqk (key1_ne_key5 tid)
      · rfl
  rw [e1, e2, e3, e4]

lemma acyclic_single {a b : Nat} (hab : a ≠ b) : Acyclic [(a, b)] := by
  intro v hv
  have hstep : ∀ x y : Nat,
      Relation.TransGen (fun p q => (p, q) ∈ ([(a, b)] : List (Nat × Nat))) x y →
      x = a ∧ y = b := by
    intro x y hxy
    induction hxy with
    | single h =>
      have h2 := List.mem_singleton.mp h
      exact ⟨congrArg Prod.fst h2, congrArg Prod.snd h2⟩
    | tail hT hr ih =>
      have h2 := List.mem_singleton.mp hr
      have hba : _ = a := congrArg Prod.fst h2
      exact absurd (ih.2.symm.trans hba).symm hab
  obtain ⟨h1, h2⟩ := hstep v v hv
  exact hab (h1.symm.trans h2)

/-! ### The claims -/

/-- C1: the claim says a dependency cycle among pending tasks never raises
and yields the priority-sorted fallback `[Q, P]`.  The code's `except
nx.NetworkXError` clause does not match the `NetworkXUnfeasible` that
`topological_sort` raises on a cycle (it subclasses `NetworkXAlgorithmError`,
not `NetworkXError`), so `get_tasks_ordered` raises an uncaught exception on
the cyclic snapshot instead of returning the fallback the spec prescribes. -/
theorem claim_C1_cycle_uncaught :
    getTasksOrdered cycleDb = PyResult.raised NxExc.networkXUnfeasible ∧
    isInstanceOfNetworkXError NxExc.networkXUnfeasible = false ∧
    specOrderedTasks cycleDb = [rowQ, rowP] := by decide

/-- C2: on an acyclic snapshot with unique task ids, for every dependency
row `(t, d)` with both rows pending, `get_tasks_ordered` returns (without
raising) a permutation of the pending rows — each pending task exactly
once — in which `d` is placed strictly before `t`. -/
theorem claim_C2_partial_order (db : Db)
    (hids : (db.tasks.map (fun t => t.id)).Nodup)
    (hacyc : Acyclic (depEdges db))
    (t d : TaskRow) (ht : t ∈ pendingTasks db) (hd : d ∈ pendingTasks db)
    (hdep : (t.id, d.id) ∈ db.dependencies) :
    ∃ out, getTasksOrdered db = PyResult.ok out ∧ out.Perm (pendingTasks db) ∧
      Before out d t := by
  obtain ⟨out, hok, hperm, hbef⟩ := getTasksOrdered_acyclic hids hacyc
  refine ⟨out, hok, hperm, ?_⟩
  have hedge : (d.id, t.id) ∈ depEdges db := by
    rw [depEdges, mem_buildEdges]
    exact ⟨(t.id, d.id), hdep, List.mem_map_of_mem _ ht, List.mem_map_of_mem _ hd, rfl⟩
  exact hbef _ hedge d t hd ht rfl rfl

theorem claim_C2_witness :
    (w2Db.tasks.map (fun t => t.id)).Nodup ∧
    Acyclic (depEdges w2Db) ∧
    ∃ out, getTasksOrdered w2Db = PyResult.ok out ∧ out.Perm (pendingTasks w2Db) ∧
      Before out w2d w2t := by
  have hacyc : Acyclic (depEdges w2Db) := by
    rw [show depEdges w2Db = [(1, 2)] from by decide]
    exact acyclic_single (by decide)
  exact ⟨by decide, hacyc,
    claim_C2_partial_order w2Db (by decide) hacyc w2t w2d (by decide) (by decide) (by decide)⟩

/-- C3: the claim says ready tasks and the fallback list are ordered by
`compare` (priority, then deadline, then id).  On `exDb3` (no equal
priorities, so no dependence on SQL tie order) the spec's `compare`-driven
ready-set algorithm yields `[A, C, B]`, but the code emits ready tasks in
node insertion order by generations, producing `[A, B, C]`. -/
theorem claim_C3_counterexample :
    getTasksOrdered exDb3 = PyResult.ok [rowA3, rowB3, rowC3] ∧
    specOrderedTasks exDb3 = [rowA3, rowC3, rowB3] ∧
    ([rowA3, rowB3, rowC3] : List TaskRow) ≠ [rowA3, rowC3, rowB3] := by decide

/-- C3 amended: `get_tasks_ordered` does not consult the compare tie-break
when choosing among ready tasks; ready tasks are emitted in node insertion
order (the SQL `priority DESC` fetch order), generation by generation: on
`exDb3` the output is `[A, B, C]`, with B(priority 1) before the ready
C(priority 5). -/
theorem claim_C3_amended_insertion_order :
    getTasksOrdered exDb3 = PyResult.ok [rowA3, rowB3, rowC3] := by decide

/-- C4: the claim says two identical registrations leave exactly 3 live
timers.  They leave 4: the three offset timers plus the 30-second
immediate-test timer (registered because the deadline is more than 30
seconds away whenever all three offsets are in the future). -/
theorem claim_C4_counterexample :
    (schedule_notification (schedule_notification [] 0 1 200000) 0 1 200000).length = 4 ∧
    ¬ (schedule_notification (schedule_notification [] 0 1 200000) 0 1 200000).length = 3 := by
  decide

/-- C4 amended: calling `schedule_notification(taskId, D)` twice with the
same deadline (all three offsets strictly in the future) leaves exactly 4
live timers — the three offsets plus the immediate-test timer — not 8:
re-registering under the same `(taskId, offsetLabel)` job id replaces the
previous timer, and the second call leaves the store unchanged. -/
theorem claim_C4_idempotent_four (now : Int) (tid : Nat) (D : Int)
    (hfut : D - 86400 > now) :
    schedule_notification (schedule_notification [] now tid D) now tid D =
      schedule_notification [] now tid D ∧
    (schedule_notification (schedule_notification [] now tid D) now tid D).length = 4 := by
  have h : now + 86400 < D := by omega
  refine ⟨schedule_notification_idem now tid D h, ?_⟩
  rw [schedule_notification_idem now tid D h, schedule_notification_empty_all_future now tid D h]
  rfl

theorem claim_C4_witness :
    ((200000 : Int) - 86400 > 0) ∧
    schedule_notification (schedule_notification [] 0 1 200000) 0 1 200000 =
      schedule_notification [] 0 1 200000 ∧
    (schedule_notification (schedule_notification [] 0 1 200000) 0 1 200000).length = 4 :=
  ⟨by decide, (claim_C4_idempotent_four 0 1 200000 (by decide)).1,
    (claim_C4_idempotent_four 0 1 200000 (by decide)).2⟩

/-- C5: an offset among {24h, 1h, 5m} whose fire time `deadline - offset`
is not strictly later than the call time is never registered — the job
store's slot under that offset's key is left exactly as it was. -/
theorem claim_C5_past_offset_skip (jobs : List (String × Job)) (now : Int) (tid : Nat)
    (D : Int) (delta : Int) (label : String)
    (hmem : (delta, label) ∈ notification_intervals) (hskip : ¬ (D - delta > now)) :
    (schedule_notification jobs now tid D).find? (fun p => p.1 = notifKey tid label) =
      jobs.find? (fun p => p.1 = notifKey tid label) :=
  schedule_notification_skip jobs now tid D hmem (by omega)

theorem claim_C5_witness :
    ((86400 : Int), "24 hours") ∈ notification_intervals ∧
    ¬ ((600 : Int) - 86400 > 0) ∧
    (schedule_notification [] 0 1 600).find? (fun p => p.1 = notifKey 1 "24 hours") = none ∧
    (schedule_notification [] 0 1 600).find? (fun p => p.1 = notifKey 1 "1 hour") = none ∧
    ((schedule_notification [] 0 1 600).find? (fun p => p.1 = notifKey 1 "5 minutes")).isSome
      = true :=
  ⟨by decide, by decide,
    (claim_C5_past_offset_skip [] 0 1 600 86400 "24 hours" (by decide) (by decide)).trans rfl,
    (claim_C5_past_offset_skip [] 0 1 600 3600 "1 hour" (by decide) (by decide)).trans rfl,
    by decide⟩

/-- C6: when the fire handler finds the task id in the store, it appends
exactly one notification row whose message is built from the row's title
and deadline as read at fire time, and that message contains the
(upper-cased) offset label. -/
theorem claim_C6_fire_live_read (db : Db) (tid : Nat) (iv : String) (t : TaskRow)
    (hfind : db.tasks.find? (fun x => x.id = tid) = some t) :
    (send_notification db tid iv).notifs =
      db.notifs ++ [(⟨tid, reminderMessage iv t.title (optText t.deadline), 0⟩ :
        NotificationRow)] ∧
    ∃ pre post, reminderMessage iv t.title (optText t.deadline) =
      pre ++ strUpper iv ++ post := by
  constructor
  · unfold send_notification
    rw [hfind]
  · refine ⟨"⏰ ", " REMINDER: Task " ++ squote ++ t.title ++ squote ++
      " deadline approaching! Due: " ++ optText t.deadline, ?_⟩
    apply String.ext
    unfold reminderMessage
    simp [String.data_append, List.append_assoc]

theorem claim_C6_witness :
    exDb7.tasks.find? (fun x => x.id = 1) = some rowP ∧
    ((send_notification exDb7 1 "1 hour").notifs =
      exDb7.notifs ++ [(⟨1, reminderMessage "1 hour" rowP.title (optText rowP.deadline), 0⟩ :
        NotificationRow)] ∧
    ∃ pre post, reminderMessage "1 hour" rowP.title (optText rowP.deadline) =
      pre ++ strUpper "1 hour" ++ post) :=
  ⟨by decide, claim_C6_fire_live_read exDb7 1 "1 hour" rowP (by decide)⟩

/-- C7: firing for a task id not in the store changes nothing — no row is
appended, no error is raised, the whole database is returned unchanged. -/
theorem claim_C7_fire_missing_noop (db : Db) (tid : Nat) (iv : String)
    (hfind : db.tasks.find? (fun x => x.id = tid) = none) :
    send_notification db tid iv = db := by
  unfold send_notification
  rw [hfind]

theorem claim_C7_witness :
    exDb7.tasks.find? (fun x => x.id = 9) = none ∧
    send_notification exDb7 9 "1 hour" = exDb7 :=
  ⟨by decide, claim_C7_fire_missing_noop exDb7 9 "1 hour" (by decide)⟩

/-- C8: a completed task never appears in an `ok` output of
`get_tasks_ordered`, and dependency rows with an endpoint outside the
pending set are inert — deleting them from the table leaves the call's
result unchanged (they are dropped during graph building, not an error). -/
theorem claim_C8_completed_excluded_dangling_inert :
    (∀ (db : Db) (out : List TaskRow) (t : TaskRow),
      getTasksOrdered db = PyResult.ok out → t ∈ out → t.status = "pending") ∧
    (∀ db : Db,
      getTasksOrdered { db with
          dependencies := db.dependencies.filter
            (fun e => e.1 ∈ (pendingTasks db).map (fun t => t.id) ∧
              e.2 ∈ (pendingTasks db).map (fun t => t.id)) } =
        getTasksOrdered db) := by
  constructor
  · intro db out t hok ht
    exact pendingTasks_status (mem_of_getTasksOrdered_ok hok t ht)
  · intro db
    show orderResult (pendingTasks db) ((pendingTasks db).map (fun t => t.id))
        (buildEdges ((pendingTasks db).map (fun t => t.id))
          (db.dependencies.filter
            (fun e => e.1 ∈ (pendingTasks db).map (fun t => t.id) ∧
              e.2 ∈ (pendingTasks db).map (fun t => t.id)))) =
      orderResult (pendingTasks db) ((pendingTasks db).map (fun t => t.id))
        (buildEdges ((pendingTasks db).map (fun t => t.id)) db.dependencies)
    rw [buildEdges_filter_inert]

theorem claim_C8_witness :
    getTasksOrdered exDb8 = PyResult.ok [rowP] ∧ rowP ∈ [rowP] ∧
    rowP.status = "pending" :=
  ⟨by decide, by decide,
    claim_C8_completed_excluded_dangling_inert.1 exDb8 [rowP] rowP (by decide) (by decide)⟩

/-- C9: `get_tasks_ordered` is a function of the database snapshot alone —
two instances with arbitrary (different) `task_heap`s and leftover
`dependency_graph`s return the identical result on the same snapshot. -/
theorem claim_C9_deterministic (s1 s2 : TaskSchedulerState) (db : Db) :
    (get_tasks_ordered s1 db).1 = (get_tasks_ordered s2 db).1 := rfl

/-- C10: whenever `now + 30 < deadline`, a fourth job keyed
`immediate_test_{task_id}` is registered to fire 30 seconds after the call,
and a single registration starting from an empty store leaves at most four
live timers. -/
theorem claim_C10_immediate_test_timer (jobs : List (String × Job)) (now : Int) (tid : Nat)
    (D : Int) (h : now + 30 < D) :
    (schedule_notification jobs now tid D).find? (fun p => p.1 = immediateKey tid) =
      some (immediateKey tid, (⟨now + 30, tid, "IMMEDIATE_TEST"⟩ : Job)) ∧
    (schedule_notification [] now tid D).length ≤ 4 := by
  refine ⟨schedule_notification_immediate jobs now tid D h, ?_⟩
  have hle := schedule_notification_length_le [] now tid D
  simpa using hle

theorem claim_C10_witness :
    ((0 : Int) + 30 < 600) ∧
    (schedule_notification [] 0 1 600).find? (fun p => p.1 = immediateKey 1) =
      some (immediateKey 1, (⟨30, 1, "IMMEDIATE_TEST"⟩ : Job)) ∧
    (schedule_notification [] 0 1 600).length ≤ 4 :=
  ⟨by decide, (claim_C10_immediate_test_timer [] 0 1 600 (by decide)).1,
    (claim_C10_immediate_test_timer [] 0 1 600 (by decide)).2⟩
